import Mathlib

/-!
Verification of the dupe-analyser analysis engine (internal/analyser/analyser.go),
its source discovery (internal/source/source.go) and report model
(internal/report/report.go), as a shallow embedding.

Modelling conventions:
* Machine integers (`int`, `int32`, `int64`) are modelled as `Nat`: every counter in
  the engine only ever increments, byte sizes are non-negative, and no claim under
  verification involves wrap-around.
* Go maps are modelled as association lists (insertion-ordered); map iteration in the
  Go code is only ever used for order-independent aggregation (sums and set-like
  collection), so the list order is immaterial to the verified statements.
* `float64` averages are modelled as exact rationals (`Rat`); the claims under
  verification concern which counts feed the ratios, not rounding.
* The concurrent worker pool is modelled by a sequential fold over the source list in
  dispatch order, with an explicit cancellation oracle per source reproducing the
  `ctx.Done()` polling of `processSource` (checked when `lineNumber % 1000 == 0`)
  and the dispatcher/worker-level skip of never-claimed sources.
-/

namespace DupeAnalyser

/-- A decoded JSON value, as produced by `encoding/json` unmarshalling into
`interface\x7b\x7d` (`report.JSONData` is `map[string]interface\x7b\x7d` at top level). -/
inductive JsonVal where
  | null : JsonVal
  | bool (b : Bool) : JsonVal
  | num (n : Int) : JsonVal
  | str (s : String) : JsonVal
  | arr (xs : List JsonVal) : JsonVal
  | obj (fields : List (String × JsonVal)) : JsonVal

/-- Ordering of object fields by key, the order `json.Marshal` emits map entries in. -/
def keyLE (a b : String × JsonVal) : Prop := a.1 ≤ b.1

instance : DecidableRel keyLE := fun a b => inferInstanceAs (Decidable (a.1 ≤ b.1))

instance : IsTotal (String × JsonVal) keyLE := ⟨fun a b => le_total a.1 b.1⟩

instance : IsTrans (String × JsonVal) keyLE := ⟨fun _ _ _ h1 h2 => le_trans h1 h2⟩

/-- Whether an association list of fields already binds a key. -/
def containsKey (m : List (String × JsonVal)) (k : String) : Bool :=
  m.any (fun p => p.1 == k)

/-- Insert a field into a decoded object, replacing an existing binding of the same
key (Go map assignment: a duplicate key in the source text wins with its last value). -/
def upsert (m : List (String × JsonVal)) (p : String × JsonVal) : List (String × JsonVal) :=
  match m with
  | [] => [p]
  | q :: rest => if q.1 = p.1 then p :: rest else q :: upsert rest p

/-- Collapse textual fields into map bindings, later duplicates overriding earlier
ones, as `json.Unmarshal` does when filling a `map[string]interface\x7b\x7d`. -/
def dedupLast (l : List (String × JsonVal)) : List (String × JsonVal) :=
  l.foldl upsert []

mutual

/-- Canonical form of a decoded value: object fields are deduplicated (last binding
wins) and sorted by key, at every nesting level, exactly the normal form whose
serialization `json.Marshal` produces for the unmarshalled `interface\x7b\x7d` data. -/
def canonVal : JsonVal → JsonVal
  | .null => .null
  | .bool b => .bool b
  | .num n => .num n
  | .str s => .str s
  | .arr xs => .arr (canonList xs)
  | .obj fs => .obj (List.insertionSort keyLE (dedupLast (canonFields fs)))

/-- Canonicalize every element of a JSON array. -/
def canonList : List JsonVal → List JsonVal
  | [] => []
  | x :: xs => canonVal x :: canonList xs

/-- Canonicalize the value of every field of a JSON object. -/
def canonFields : List (String × JsonVal) → List (String × JsonVal)
  | [] => []
  | (k, v) :: fs => (k, canonVal v) :: canonFields fs

end

/-- The decoded record type `report.JSONData` (`map[string]interface\x7b\x7d`),
represented canonically as a key-sorted, key-duplicate-free association list. -/
abbrev JSONData := List (String × JsonVal)

/-- `json.Unmarshal` of one NDJSON object line, given its fields in textual order:
the resulting map, in canonical representation. -/
def unmarshalFields (fs : List (String × JsonVal)) : JSONData :=
  List.insertionSort keyLE (dedupLast (canonFields fs))

/-- UTF-8 encoding of one character, as `Nat` byte values. -/
def utf8Bytes (c : Char) : List Nat :=
  let n := c.toNat
  if n < 128 then [n]
  else if n < 2048 then [192 + n / 64, 128 + n % 64]
  else if n < 65536 then [224 + n / 4096, 128 + (n / 64) % 64, 128 + n % 64]
  else [240 + n / 262144, 128 + (n / 4096) % 64, 128 + (n / 64) % 64, 128 + n % 64]

/-- UTF-8 bytes of a string, as `Nat` byte values. -/
def strBytes (s : String) : List Nat :=
  s.toList.flatMap utf8Bytes

/-- Bytes of one JSON string character position, with the basic escapes `encoding/json`
emits for quote, backslash and control bytes (34 is a double quote, 92 a backslash). -/
def escapeByte (b : Nat) : List Nat :=
  if b == 34 then [92, 34]
  else if b == 92 then [92, 92]
  else if b < 32 then
    [92, 117, 48, 48, 48 + b / 16, if b % 16 < 10 then 48 + b % 16 else 87 + b % 16]
  else [b]

mutual

/-- Compact JSON serialization to bytes, the output of `json.Marshal` on canonical
data (object fields are emitted in list order; `canonVal` has already sorted them
by key the way `json.Marshal` sorts map keys). 123 and 125 are the brace bytes,
91 and 93 the brackets, 34 the quote, 44 the comma, 58 the colon. -/
def marshalVal : JsonVal → List Nat
  | .null => [110, 117, 108, 108]
  | .bool true => [116, 114, 117, 101]
  | .bool false => [102, 97, 108, 115, 101]
  | .num n => strBytes (toString n)
  | .str s => 34 :: (strBytes s).flatMap escapeByte ++ [34]
  | .arr xs => 91 :: marshalArr xs ++ [93]
  | .obj fs => 123 :: marshalObj fs ++ [125]

/-- Comma-separated serialization of array elements. -/
def marshalArr : List JsonVal → List Nat
  | [] => []
  | [x] => marshalVal x
  | x :: y :: xs => marshalVal x ++ 44 :: marshalArr (y :: xs)

/-- Comma-separated serialization of object fields as quoted key, colon, value. -/
def marshalObj : List (String × JsonVal) → List Nat
  | [] => []
  | [(k, v)] => 34 :: (strBytes k).flatMap escapeByte ++ 34 :: 58 :: marshalVal v
  | (k, v) :: q :: fs => 34 :: (strBytes k).flatMap escapeByte
      ++ 34 :: 58 :: marshalVal v ++ 44 :: marshalObj (q :: fs)

end

/-- The FNV-1a 64-bit prime (`hash/fnv`). -/
def fnvPrime : Nat := 1099511628211

/-- The FNV-1a 64-bit offset basis (`hash/fnv`). -/
def fnvOffset : Nat := 14695981039346656037

/-- 64-bit FNV-1a over a byte sequence: xor the byte in, multiply by the prime,
truncated to 64 bits, exactly `fnv.New64a` followed by `Write` and `Sum64`. -/
def fnv1a64 (bytes : List Nat) : Nat :=
  bytes.foldl (fun h b => ((h ^^^ b % 256) * fnvPrime) % (2 ^ 64)) fnvOffset

/-- The by-hash group key `processRow` computes for a decoded record: re-serialize
compactly (`json.Marshal`), hash the bytes with 64-bit FNV-1a, and format the sum
in base 10 (`strconv.FormatUint(rowHasher.Sum64(), 10)`). -/
def rowHashKey (data : JSONData) : String :=
  toString (fnv1a64 (marshalVal (.obj data)))

mutual

/-- Go `fmt.Sprintf("%v", v)` on a decoded JSON value, the stringification
`processRow` applies to the key's value before using it as the by-key group key.
(JSON numbers decode to `float64` in Go; the model's integer rendering agrees on
the integral values exercised here, and every claim under verification depends
only on this function being deterministic.) -/
def formatValue : JsonVal → String
  | .null => "<nil>"
  | .bool b => toString b
  | .num n => toString n
  | .str s => s
  | .arr xs => "[" ++ formatList xs ++ "]"
  | .obj fs => "map[" ++ formatFields fs ++ "]"

/-- Space-separated `%v` rendering of array elements. -/
def formatList : List JsonVal → String
  | [] => ""
  | [x] => formatValue x
  | x :: y :: xs => formatValue x ++ " " ++ formatList (y :: xs)

/-- Space-separated `key:value` rendering of map entries. -/
def formatFields : List (String × JsonVal) → String
  | [] => ""
  | [(k, v)] => k ++ ":" ++ formatValue v
  | (k, v) :: q :: fs => k ++ ":" ++ formatValue v ++ " " ++ formatFields (q :: fs)

end

/-- `filepath.Dir`: the containing directory of a path (everything before the last
separator, `.` when there is none). Path-cleaning details of `filepath.Dir` are
immaterial here: the model only relies on this being a function of the path, which
ties `processRow`'s `filepath.Dir(filePath)` to the source's `Dir()` (both source
variants define `Dir()` as `filepath.Dir` of their `Path()`). -/
def dirOf (p : String) : String :=
  if p.toList.contains '/' then
    String.mk (((p.toList.reverse.dropWhile (fun c => c != '/')).drop 1).reverse)
  else "."

/-- `report.LocationInfo`: one physical occurrence of a record. -/
structure LocationInfo where
  filePath : String
  lineNumber : Nat
deriving DecidableEq

/-- The configuration part of the `Analyser` struct, as set by `analyser.New`
(`numWorkers` sizes the worker pool, which the sequential model folds over). -/
structure Analyser where
  uniqueKey : String
  numWorkers : Nat
  checkKey : Bool
  checkRow : Bool
  validateOnly : Bool

/-- The mutable part of the `Analyser` struct: the five lock-guarded aggregates plus
the atomic counters and the advisory current-folder value. -/
structure EngineState where
  idLocations : List (String × List LocationInfo)
  rowHashes : List (String × List LocationInfo)
  keysFoundPerFolder : List (String × Nat)
  rowsProcessedPerFolder : List (String × Nat)
  processedFiles : Nat
  totalRows : Nat
  currentFolder : Option String
  processedPaths : List String
deriving DecidableEq

/-- The zero state `analyser.New` creates: all maps empty, all counters zero. -/
def initState : EngineState where
  idLocations := []
  rowHashes := []
  keysFoundPerFolder := []
  rowsProcessedPerFolder := []
  processedFiles := 0
  totalRows := 0
  currentFolder := none
  processedPaths := []

/-- Go map read with the type's zero value as default. -/
def lookupD {α : Type} (m : List (String × α)) (k : String) (d : α) : α :=
  match m with
  | [] => d
  | p :: rest => if p.1 = k then p.2 else lookupD rest k d

/-- `m[k] = append(m[k], loc)` on a map of location groups. -/
def appendLoc (m : List (String × List LocationInfo)) (k : String) (loc : LocationInfo) :
    List (String × List LocationInfo) :=
  match m with
  | [] => [(k, [loc])]
  | p :: rest => if p.1 = k then (k, p.2 ++ [loc]) :: rest else p :: appendLoc rest k loc

/-- `m[k]++` on a counter map. -/
def bumpCount (m : List (String × Nat)) (k : String) : List (String × Nat) :=
  match m with
  | [] => [(k, 1)]
  | p :: rest => if p.1 = k then (k, p.2 + 1) :: rest else p :: bumpCount rest k

/-- `m[p] = true` on the processed-paths set. -/
def insertPath (l : List String) (p : String) : List String :=
  if p ∈ l then l else l ++ [p]

/-- `data[key]` on a decoded record. -/
def getKey (data : List (String × JsonVal)) (k : String) : Option JsonVal :=
  match data with
  | [] => none
  | p :: rest => if p.1 = k then some p.2 else getKey rest k

/-- `(*Analyser).processRow`: classify one decoded record. Bails out immediately
when key-checking is disabled; otherwise counts and (outside validation mode)
records the key occurrence, then (row-checking enabled and not validating) records
the content-hash occurrence. -/
def processRow (a : Analyser) (st : EngineState) (data : JSONData) (filePath : String)
    (lineNumber : Nat) : EngineState :=
  if !a.checkKey then st
  else
    let hashStep := fun (st1 : EngineState) =>
      if a.checkRow && !a.validateOnly then
        { st1 with
          rowHashes := appendLoc st1.rowHashes (rowHashKey data) ⟨filePath, lineNumber⟩ }
      else st1
    match getKey data a.uniqueKey with
    | none => hashStep st
    | some v =>
        let st1 := { st with
          keysFoundPerFolder := bumpCount st.keysFoundPerFolder (dirOf filePath) }
        if a.validateOnly then st1
        else
          hashStep { st1 with
            idLocations := appendLoc st1.idLocations (formatValue v) ⟨filePath, lineNumber⟩ }

/-- One line the scanner yields: zero-length, structurally undecodable, or a JSON
object with its fields in textual order. -/
inductive Line where
  | blank : Line
  | malformed : Line
  | record (fields : List (String × JsonVal)) : Line

/-- An `source.InputSource`: canonical path identity, byte size, and the outcome of
opening and scanning it — `none` models an `Open` failure; `some (lines, scanErr)`
gives the lines the scanner yields and whether `scanner.Err()` then reports a
stream-level failure. -/
structure Source where
  path : String
  size : Nat
  openResult : Option (List Line × Bool)

/-- `InputSource.Dir()`: `filepath.Dir` of the path for both source variants. -/
def Source.dir (s : Source) : String := dirOf s.path

/-- The per-line body of the scan loop in `processSource`: a zero-length line is
skipped entirely; any other line bumps the row counters; a decodable line is then
classified by `processRow` with the 1-based line number. -/
def processLine (a : Analyser) (st : EngineState) (src : Source) (l : Line)
    (lineNumber : Nat) : EngineState :=
  match l with
  | .blank => st
  | .malformed =>
      { st with
        totalRows := st.totalRows + 1
        rowsProcessedPerFolder := bumpCount st.rowsProcessedPerFolder src.dir }
  | .record fs =>
      let st1 := { st with
        totalRows := st.totalRows + 1
        rowsProcessedPerFolder := bumpCount st.rowsProcessedPerFolder src.dir }
      processRow a st1 (unmarshalFields fs) src.path lineNumber

/-- The scan loop of `processSource`: `n` is the number of lines already consumed
(the Go `lineNumber` before its increment); when `n % 1000 == 0` the cancellation
oracle `done` is polled and a set signal aborts the scan. Returns the state and
whether the scan reached end-of-stream without observing cancellation. -/
def scanLinesAux (a : Analyser) (src : Source) (done : Nat → Bool) :
    EngineState → List Line → Nat → EngineState × Bool
  | st, [], _ => (st, true)
  | st, l :: rest, n =>
      if n % 1000 == 0 && done n then (st, false)
      else scanLinesAux a src done (processLine a st src l (n + 1)) rest (n + 1)

/-- `(*Analyser).processSource`: store the advisory current folder, open the source
(an open failure skips it), scan its lines, and — only when the scan reached
end-of-stream with no cancellation observed and no scanner error — mark the path
processed and bump the processed-file counter. -/
def processSource (a : Analyser) (st : EngineState) (src : Source) (done : Nat → Bool) :
    EngineState :=
  let st0 := { st with currentFolder := some src.dir }
  match src.openResult with
  | none => st0
  | some (lines, scanErr) =>
      let res := scanLinesAux a src done st0 lines 0
      if res.2 && !scanErr then
        { res.1 with
          processedPaths := insertPath res.1.processedPaths src.path
          processedFiles := res.1.processedFiles + 1 }
      else res.1

/-- How the run treats one dispatched source: never claimed (the dispatcher stopped
feeding, or the worker saw cancellation before claiming it), or scanned under a
given cancellation oracle. -/
inductive SourceFate where
  | skip : SourceFate
  | scan (done : Nat → Bool) : SourceFate

/-- Apply one source's fate to the state. -/
def runFate (a : Analyser) (st : EngineState) (src : Source) : SourceFate → EngineState
  | .skip => st
  | .scan done => processSource a st src done

/-- The state effect of `(*Analyser).Run`: the dispatcher feeds the sources in
order and each is either skipped or scanned according to the schedule. -/
def runSched (a : Analyser) : EngineState → List Source → (Nat → SourceFate) → EngineState
  | st, [], _ => st
  | st, s :: rest, sched => runSched a (runFate a st s (sched 0)) rest (fun i => sched (i + 1))

/-- A cancellation oracle that is never set. -/
def noCancel : Nat → Bool := fun _ => false

/-- The schedule of an uninterrupted run: every source is claimed and scanned with
no cancellation ever observed. -/
def fullSched : Nat → SourceFate := fun _ => .scan noCancel

/-- The state effect of an uninterrupted `Run`. -/
def runFull (a : Analyser) (st : EngineState) (srcs : List Source) : EngineState :=
  runSched a st srcs fullSched

/-- `(*Analyser).GetUnprocessedSources`: the sources whose path is not in the
processed set. -/
def GetUnprocessedSources (st : EngineState) (allSources : List Source) : List Source :=
  allSources.filter (fun s => !st.processedPaths.contains s.path)

/-- `report.FolderDetail`: per-folder aggregated metrics. -/
structure FolderDetail where
  processedSizeBytes : Nat
  totalSizeBytes : Nat
  filesProcessed : Nat
  totalFiles : Nat
  keysFound : Nat
  rowsProcessed : Nat
deriving DecidableEq

/-- The Go zero value a fresh `folderDetails[dir]` read yields. -/
def emptyDetail : FolderDetail where
  processedSizeBytes := 0
  totalSizeBytes := 0
  filesProcessed := 0
  totalFiles := 0
  keysFound := 0
  rowsProcessed := 0

/-- `report.SummaryReport`. The human-readable size strings and the elapsed-time
string (pure presentation, filled in by the caller) are omitted. -/
structure SummaryReport where
  isValidationReport : Bool
  isPartialReport : Bool
  filesProcessed : Nat
  totalFiles : Nat
  processedDataSizeBytes : Nat
  totalDataSizeOverallBytes : Nat
  totalRowsProcessed : Nat
  uniqueKey : String
  totalKeyOccurrences : Nat
  uniqueKeysDuplicated : Nat
  duplicateRowInstances : Nat
  averageRowsPerFile : Rat
  averageFilesPerFolder : Rat
  duplicateIDsPerFolder : List (String × Nat)
  duplicateRowsPerFolder : List (String × Nat)
  folderDetails : List (String × FolderDetail)
deriving DecidableEq

/-- `report.AnalysisReport`. -/
structure AnalysisReport where
  summary : SummaryReport
  duplicateIDs : List (String × List LocationInfo)
  duplicateRows : List (String × List LocationInfo)
deriving DecidableEq

/-- Bump a per-folder duplicate counter once per location, keyed by the location's
containing directory. -/
def bumpDirs (m : List (String × Nat)) (locs : List LocationInfo) : List (String × Nat) :=
  locs.foldl (fun acc loc => bumpCount acc (dirOf loc.filePath)) m

/-- The `idLocations` aggregation loop of `generateReport`: accumulate the total
number of recorded key occurrences, and for every group of more than one location
the duplicate-group entry, the unique-duplicate count and the per-folder tallies. -/
def idLoop : List (String × List LocationInfo) →
    Nat × Nat × List (String × List LocationInfo) × List (String × Nat) →
    Nat × Nat × List (String × List LocationInfo) × List (String × Nat)
  | [], acc => acc
  | (id, locs) :: rest, (totalIDs, uniq, dup, perFolder) =>
      if locs.length > 1 then
        idLoop rest (totalIDs + locs.length, uniq + 1, dup ++ [(id, locs)], bumpDirs perFolder locs)
      else
        idLoop rest (totalIDs + locs.length, uniq, dup, perFolder)

/-- The `rowHashes` aggregation loop of `generateReport`: for every group of more
than one location, accumulate the duplicate-row instance count, the group entry and
the per-folder tallies. -/
def rowLoop : List (String × List LocationInfo) →
    Nat × List (String × List LocationInfo) × List (String × Nat) →
    Nat × List (String × List LocationInfo) × List (String × Nat)
  | [], acc => acc
  | (h, locs) :: rest, (total, dup, perFolder) =>
      if locs.length > 1 then
        rowLoop rest (total + locs.length, dup ++ [(h, locs)], bumpDirs perFolder locs)
      else
        rowLoop rest (total, dup, perFolder)

/-- `folderDetails[dir] = detail` (Go map assignment, replacing in place). -/
def setDetail (m : List (String × FolderDetail)) (k : String) (d : FolderDetail) :
    List (String × FolderDetail) :=
  match m with
  | [] => [(k, d)]
  | p :: rest => if p.1 = k then (k, d) :: rest else p :: setDetail rest k d

/-- The per-source loop of `generateReport` building `folderDetails`: every source
bumps its folder's file and byte totals, a processed source additionally bumps the
processed counters, and the keys-found and rows-processed fields are copied from
the engine's per-folder counters. -/
def buildFolderDetails (st : EngineState) :
    List Source → List (String × FolderDetail) → List (String × FolderDetail)
  | [], acc => acc
  | s :: rest, acc =>
      let dir := s.dir
      let d0 := lookupD acc dir emptyDetail
      let d1 := { d0 with
        totalFiles := d0.totalFiles + 1
        totalSizeBytes := d0.totalSizeBytes + s.size }
      let d2 :=
        if st.processedPaths.contains s.path then
          { d1 with
            filesProcessed := d1.filesProcessed + 1
            processedSizeBytes := d1.processedSizeBytes + s.size }
        else d1
      let d3 := { d2 with
        keysFound := lookupD st.keysFoundPerFolder dir 0
        rowsProcessed := lookupD st.rowsProcessedPerFolder dir 0 }
      buildFolderDetails st rest (setDetail acc dir d3)

/-- `(*Analyser).generateReport`: snapshot the engine state plus the full original
source list into an `AnalysisReport`. -/
def generateReport (a : Analyser) (st : EngineState) (sources : List Source)
    (wasCancelled isValidation : Bool) : AnalysisReport :=
  let idAgg :=
    if a.checkKey && !isValidation then idLoop st.idLocations (0, 0, [], [])
    else (0, 0, [], [])
  let rowAgg :=
    if a.checkRow && !isValidation then rowLoop st.rowHashes (0, [], [])
    else (0, [], [])
  let folderDetails := buildFolderDetails st sources []
  let totalOverallBytes := (sources.map (fun s => s.size)).sum
  let processedCount := st.processedFiles
  let processedBytes := (folderDetails.map (fun p => p.2.processedSizeBytes)).sum
  let totalKeysFound := (folderDetails.map (fun p => p.2.keysFound)).sum
  let totalIDs := if isValidation then totalKeysFound else idAgg.1
  let rowCount := st.totalRows
  let avgRows : Rat :=
    if processedCount > 0 then (rowCount : Rat) / (processedCount : Rat) else 0
  let uniqueFolders := (sources.map Source.dir).dedup
  let avgFilesPerFolder : Rat :=
    if uniqueFolders.length > 0 then (sources.length : Rat) / (uniqueFolders.length : Rat)
    else 0
  { summary :=
      { isValidationReport := isValidation
        isPartialReport := wasCancelled
        filesProcessed := processedCount
        totalFiles := sources.length
        processedDataSizeBytes := processedBytes
        totalDataSizeOverallBytes := totalOverallBytes
        totalRowsProcessed := rowCount
        uniqueKey := a.uniqueKey
        totalKeyOccurrences := totalIDs
        uniqueKeysDuplicated := idAgg.2.1
        duplicateRowInstances := rowAgg.1
        averageRowsPerFile := avgRows
        averageFilesPerFolder := avgFilesPerFolder
        duplicateIDsPerFolder := idAgg.2.2.2
        duplicateRowsPerFolder := rowAgg.2.2
        folderDetails := folderDetails }
    duplicateIDs := idAgg.2.2.1
    duplicateRows := rowAgg.2.1 }

/-- `(*Analyser).Run`: apply the schedule to the state, then build the report from
the resulting state, the full source list, whether the context was cancelled, and
the validation flag. -/
def Run (a : Analyser) (st : EngineState) (sources : List Source) (sched : Nat → SourceFate)
    (ctxCancelled : Bool) : EngineState × AnalysisReport :=
  let st' := runSched a st sources sched
  (st', generateReport a st' sources ctxCancelled a.validateOnly)

/-- The per-source body of the aggregation loop in `source.DiscoverAll`: the
accumulator pairs `uniqueSources` with the `discoveredPaths` set, and a source
whose canonical path was already discovered is dropped. -/
def discoverStep (acc : List Source × List String) (s : Source) : List Source × List String :=
  if acc.2.contains s.path then acc else (acc.1 ++ [s], acc.2 ++ [s.path])

/-- `source.DiscoverAll`, given the per-root discovery results (`Discover` performs
filesystem and network I/O; its per-root output lists are the model's input): the
aggregation keeps the first occurrence of every canonical path and fails when
nothing was found. -/
def DiscoverAll (rootResults : List (List Source)) : Option (List Source) :=
  let combined := rootResults.foldl (fun acc srcs => srcs.foldl discoverStep acc) ([], [])
  if combined.1.isEmpty then none else some combined.1

/-! ## Basic properties of the map helpers -/

theorem lookupD_appendLoc (m : List (String × List LocationInfo)) (k k' : String)
    (loc : LocationInfo) :
    lookupD (appendLoc m k loc) k' [] =
      lookupD m k' [] ++ (if k' = k then [loc] else []) := by
  induction m with
  | nil =>
      by_cases h : k = k'
      · subst h; simp [appendLoc, lookupD]
      · simp [appendLoc, lookupD, h, Ne.symm h]
  | cons p rest ih =>
      by_cases hpk : p.1 = k
      · by_cases hk : k = k'
        · subst hk; simp [appendLoc, lookupD, hpk]
        · have hpk' : ¬ p.1 = k' := fun hc => hk (hpk.symm.trans hc)
          simp [appendLoc, lookupD, hpk, hk, hpk', Ne.symm hk]
      · by_cases hpk' : p.1 = k'
        · have hk : ¬ k' = k := fun hc => hpk (hpk'.trans hc)
          simp [appendLoc, lookupD, hpk, hpk', hk]
        · simp [appendLoc, lookupD, hpk, hpk', ih]

theorem lookupD_bumpCount (m : List (String × Nat)) (k k' : String) :
    lookupD (bumpCount m k) k' 0 = lookupD m k' 0 + (if k' = k then 1 else 0) := by
  induction m with
  | nil =>
      by_cases h : k = k'
      · subst h; simp [bumpCount, lookupD]
      · simp [bumpCount, lookupD, h, Ne.symm h]
  | cons p rest ih =>
      by_cases hpk : p.1 = k
      · by_cases hk : k = k'
        · subst hk; simp [bumpCount, lookupD, hpk]
        · have hpk' : ¬ p.1 = k' := fun hc => hk (hpk.symm.trans hc)
          simp [bumpCount, lookupD, hpk, hk, hpk', Ne.symm hk]
      · by_cases hpk' : p.1 = k'
        · have hk : ¬ k' = k := fun hc => hpk (hpk'.trans hc)
          simp [bumpCount, lookupD, hpk, hpk', hk]
        · simp [bumpCount, lookupD, hpk, hpk', ih]

theorem mem_insertPath (l : List String) (p q : String) :
    q ∈ insertPath l p ↔ q ∈ l ∨ q = p := by
  by_cases h : p ∈ l
  · simp only [insertPath, if_pos h]
    constructor
    · exact Or.inl
    · rintro (hq | rfl) <;> assumption
  · simp [insertPath, if_neg h]

/-! ## C1: row-hash classification is gated on key-checking

`processRow` (analyser.go:169) begins with `if !a.checkKey \x7b return \x7d`, so with
key-checking disabled the row-hashing branch is unreachable even though row-checking
is enabled and validation mode is off. The spec (and the CLI, which accepts
`-check.row` without `-check.key` as a valid full analysis, cf. main.go's "At least
one check" guard and the README's "or by hashing the entire content of each row")
intends the two classification steps to be independent. -/

/-- C1: evaluating the code at the failing input: key-checking disabled, row-checking
enabled, validation off, a decodable row — `processRow` changes nothing at all; in
particular no `LocationInfo` is appended to any by-hash group, contradicting the
claimed unconditional row-hash classification. -/
theorem C1_rowHash_not_recorded_without_checkKey :
    processRow ⟨"id", 8, false, true, false⟩ initState
      (unmarshalFields [("id", .num 1)]) "a.json" 1 = initState := rfl

/-! ## C9: discovery never returns two sources with the same canonical path -/

/-- Invariant of the `DiscoverAll` aggregation loop: the collected sources have
pairwise-distinct canonical paths, each of which has been recorded in the
discovered-path set. -/
def DiscoverInv (acc : List Source × List String) : Prop :=
  (acc.1.map Source.path).Nodup ∧ ∀ p ∈ acc.1.map Source.path, p ∈ acc.2

theorem discoverStep_inv (acc : List Source × List String) (s : Source)
    (h : DiscoverInv acc) : DiscoverInv (discoverStep acc s) := by
  by_cases hm : s.path ∈ acc.2
  · simpa [discoverStep, hm] using h
  · have hc : acc.2.contains s.path = false := by
      simpa using hm
    refine ⟨?_, ?_⟩
    · simp only [discoverStep, hc, Bool.false_eq_true, if_false, List.map_append,
        List.map_cons, List.map_nil]
      refine List.Nodup.append h.1 (by simp) ?_
      intro x hx hy
      simp only [List.mem_singleton] at hy
      subst hy
      exact hm (h.2 _ hx)
    · intro p hp
      simp only [discoverStep, hc, Bool.false_eq_true, if_false, List.map_append,
        List.map_cons, List.map_nil, List.mem_append, List.mem_singleton] at hp ⊢
      rcases hp with hp | rfl
      · exact Or.inl (h.2 p hp)
      · exact Or.inr rfl

theorem discoverFold_inv (srcs : List Source) (acc : List Source × List String)
    (h : DiscoverInv acc) : DiscoverInv (srcs.foldl discoverStep acc) := by
  induction srcs generalizing acc with
  | nil => exact h
  | cons s rest ih => exact ih _ (discoverStep_inv acc s h)

theorem discoverFoldAll_inv (rss : List (List Source)) (acc : List Source × List String)
    (h : DiscoverInv acc) :
    DiscoverInv (rss.foldl (fun acc srcs => srcs.foldl discoverStep acc) acc) := by
  induction rss generalizing acc with
  | nil => exact h
  | cons srcs rest ih => exact ih _ (discoverFold_inv srcs acc h)

/-- C9: for every set of roots, the source list `DiscoverAll` returns contains no
two sources with the same canonical path, even when the supplied roots overlap:
the discovered-path set drops every re-encountered canonical path. -/
theorem C9_discovered_paths_nodup (rootResults : List (List Source)) (out : List Source)
    (h : DiscoverAll rootResults = some out) : (out.map Source.path).Nodup := by
  unfold DiscoverAll at h
  set combined := rootResults.foldl (fun acc srcs => srcs.foldl discoverStep acc) ([], [])
    with hcombined
  by_cases he : combined.1.isEmpty
  · simp [he] at h
  · simp only [he, if_false, Option.some.injEq, Bool.false_eq_true] at h
    subst h
    exact (discoverFoldAll_inv rootResults ([], []) ⟨List.nodup_nil, by simp⟩).1

/-- A concrete source used in witnesses: a file that fails to open. -/
def srcUnopenable : Source := ⟨"/r/a.json", 1, none⟩

/-- A second concrete source for witnesses. -/
def srcOtherPath : Source := ⟨"/r/b.json", 2, none⟩

/-- C9 witness: two overlapping roots that both discover `/r/a.json`; aggregation
returns each canonical path once. -/
theorem C9_discovered_paths_nodup_witness :
    DiscoverAll [[srcUnopenable, srcOtherPath], [srcUnopenable]]
        = some [srcUnopenable, srcOtherPath] ∧
      (([srcUnopenable, srcOtherPath]).map Source.path).Nodup :=
  ⟨rfl, C9_discovered_paths_nodup [[srcUnopenable, srcOtherPath], [srcUnopenable]]
    [srcUnopenable, srcOtherPath] rfl⟩

/-! ## What each step of the engine leaves untouched -/

theorem processRow_untouched (a : Analyser) (st : EngineState) (data : JSONData)
    (p : String) (n : Nat) :
    (processRow a st data p n).totalRows = st.totalRows
  ∧ (processRow a st data p n).rowsProcessedPerFolder = st.rowsProcessedPerFolder
  ∧ (processRow a st data p n).processedPaths = st.processedPaths
  ∧ (processRow a st data p n).processedFiles = st.processedFiles
  ∧ (processRow a st data p n).currentFolder = st.currentFolder := by
  unfold processRow
  by_cases hk : a.checkKey
  · cases hg : getKey data a.uniqueKey
    · by_cases hr : a.checkRow <;> by_cases hv : a.validateOnly <;> simp [hk, hg, hr, hv]
    · by_cases hv : a.validateOnly
      · simp [hk, hg, hv]
      · by_cases hr : a.checkRow <;> simp [hk, hg, hv, hr]
  · simp [hk]

theorem processLine_untouched (a : Analyser) (st : EngineState) (src : Source)
    (l : Line) (n : Nat) :
    (processLine a st src l n).processedPaths = st.processedPaths
  ∧ (processLine a st src l n).processedFiles = st.processedFiles
  ∧ (processLine a st src l n).currentFolder = st.currentFolder := by
  cases l with
  | blank => simp [processLine]
  | malformed => simp [processLine]
  | record fs =>
      simp only [processLine]
      refine ⟨?_, ?_, ?_⟩
      · exact (processRow_untouched a _ _ _ _).2.2.1
      · exact (processRow_untouched a _ _ _ _).2.2.2.1
      · exact (processRow_untouched a _ _ _ _).2.2.2.2

theorem scanLinesAux_untouched (a : Analyser) (src : Source) (done : Nat → Bool)
    (ls : List Line) (st : EngineState) (n : Nat) :
    (scanLinesAux a src done st ls n).1.processedPaths = st.processedPaths
  ∧ (scanLinesAux a src done st ls n).1.processedFiles = st.processedFiles
  ∧ (scanLinesAux a src done st ls n).1.currentFolder = st.currentFolder := by
  induction ls generalizing st n with
  | nil => simp [scanLinesAux]
  | cons l rest ih =>
      by_cases hd : (n % 1000 == 0 && done n) = true
      · simp [scanLinesAux, hd]
      · simp only [scanLinesAux, hd, Bool.false_eq_true, if_false]
        obtain ⟨h1, h2, h3⟩ := ih (processLine a st src l (n + 1)) (n + 1)
        obtain ⟨g1, g2, g3⟩ := processLine_untouched a st src l (n + 1)
        exact ⟨h1.trans g1, h2.trans g2, h3.trans g3⟩

/-! ## Pure characterizations of the scan loop -/

/-- Whether the scan loop reaches end-of-stream without observing cancellation:
a pure function of the cancellation oracle and the line count (the loop polls the
oracle exactly when the consumed-line count is a multiple of 1000). -/
def scanOk (done : Nat → Bool) : List Line → Nat → Bool
  | [], _ => true
  | _ :: rest, n => if n % 1000 == 0 && done n then false else scanOk done rest (n + 1)

theorem scanLinesAux_ok (a : Analyser) (src : Source) (done : Nat → Bool)
    (ls : List Line) (st : EngineState) (n : Nat) :
    (scanLinesAux a src done st ls n).2 = scanOk done ls n := by
  induction ls generalizing st n with
  | nil => simp [scanLinesAux, scanOk]
  | cons l rest ih =>
      by_cases hd : (n % 1000 == 0 && done n) = true
      · simp [scanLinesAux, scanOk, hd]
      · simp only [scanLinesAux, scanOk, hd, Bool.false_eq_true, if_false]
        exact ih _ _

/-- Number of non-empty lines the scan loop consumes before end-of-stream or the
first observed cancellation: the amount `TotalRows` grows by. -/
def scanCount (done : Nat → Bool) : List Line → Nat → Nat
  | [], _ => 0
  | l :: rest, n =>
      if n % 1000 == 0 && done n then 0
      else (match l with | .blank => 0 | _ => 1) + scanCount done rest (n + 1)

theorem scanLinesAux_totalRows (a : Analyser) (src : Source) (done : Nat → Bool)
    (ls : List Line) (st : EngineState) (n : Nat) :
    (scanLinesAux a src done st ls n).1.totalRows = st.totalRows + scanCount done ls n := by
  induction ls generalizing st n with
  | nil => simp [scanLinesAux, scanCount]
  | cons l rest ih =>
      by_cases hd : (n % 1000 == 0 && done n) = true
      · simp [scanLinesAux, scanCount, hd]
      · simp only [scanLinesAux, scanCount, hd, Bool.false_eq_true, if_false]
        rw [ih _ _]
        cases l with
        | blank => simp [processLine]
        | malformed => simp [processLine, Nat.add_assoc, Nat.add_comm 1]
        | record fs =>
            have := (processRow_untouched a
              { st with
                totalRows := st.totalRows + 1
                rowsProcessedPerFolder := bumpCount st.rowsProcessedPerFolder src.dir }
              (unmarshalFields fs) src.path (n + 1)).1
            simp only [processLine, this]
            omega

theorem scanLinesAux_rowsPerFolder (a : Analyser) (src : Source) (done : Nat → Bool)
    (ls : List Line) (st : EngineState) (n : Nat) :
    lookupD (scanLinesAux a src done st ls n).1.rowsProcessedPerFolder src.dir 0
      = lookupD st.rowsProcessedPerFolder src.dir 0 + scanCount done ls n := by
  induction ls generalizing st n with
  | nil => simp [scanLinesAux, scanCount]
  | cons l rest ih =>
      by_cases hd : (n % 1000 == 0 && done n) = true
      · simp [scanLinesAux, scanCount, hd]
      · simp only [scanLinesAux, scanCount, hd, Bool.false_eq_true, if_false]
        rw [ih _ _]
        cases l with
        | blank => simp [processLine]
        | malformed =>
            simp [processLine, lookupD_bumpCount, Nat.add_assoc, Nat.add_comm 1]
        | record fs =>
            have := (processRow_untouched a
              { st with
                totalRows := st.totalRows + 1
                rowsProcessedPerFolder := bumpCount st.rowsProcessedPerFolder src.dir }
              (unmarshalFields fs) src.path (n + 1)).2.1
            simp only [processLine, this]
            simp [lookupD_bumpCount]
            omega

/-! ## C5: when a source is marked processed -/

/-- Whether `processSource` reaches its marking step: the source opened, the scan
reached end-of-stream without observing cancellation, and the scanner reported no
stream-level error. -/
def scannedToEnd (src : Source) (done : Nat → Bool) : Bool :=
  match src.openResult with
  | none => false
  | some (lines, scanErr) => scanOk done lines 0 && !scanErr

/-- C5 counterexample: a source whose `Open` fails — with no scanner failure and no
cancellation signal anywhere — is left unmarked (`processSource` returns before the
marking step), refuting the claim's clause that "an open failure ... alone does not
prevent the mark". -/
theorem C5_counterexample_open_failure_prevents_mark :
    (processSource ⟨"id", 8, true, false, false⟩ initState srcUnopenable
        noCancel).processedPaths = [] := rfl

theorem processSource_mark_iff (a : Analyser) (st : EngineState) (src : Source)
    (done : Nat → Bool) (p : String) :
    p ∈ (processSource a st src done).processedPaths ↔
      p ∈ st.processedPaths ∨ (p = src.path ∧ scannedToEnd src done = true) := by
  cases hor : src.openResult with
  | none => simp [processSource, hor, scannedToEnd]
  | some lv =>
      obtain ⟨lines, scanErr⟩ := lv
      simp only [processSource, scannedToEnd, hor]
      have hp : (scanLinesAux a src done { st with currentFolder := some src.dir }
          lines 0).1.processedPaths = st.processedPaths :=
        (scanLinesAux_untouched a src done lines _ 0).1
      have hok : (scanLinesAux a src done { st with currentFolder := some src.dir }
          lines 0).2 = scanOk done lines 0 :=
        scanLinesAux_ok a src done lines _ 0
      by_cases hb : ((scanLinesAux a src done { st with currentFolder := some src.dir }
          lines 0).2 && !scanErr) = true
      · rw [hok] at hb
        simp only [hok, hb, if_true, mem_insertPath, hp]
        rw [Bool.and_eq_true, Bool.not_eq_eq_eq_not, Bool.not_true] at hb
        constructor
        · rintro (h | rfl)
          · exact Or.inl h
          · exact Or.inr ⟨rfl, by simp [hb.1, hb.2]⟩
        · rintro (h | ⟨rfl, _⟩)
          · exact Or.inl h
          · exact Or.inr rfl
      · rw [hok] at hb
        simp only [hok, hb, Bool.false_eq_true, if_false, hp]
        constructor
        · exact Or.inl
        · rintro (h | ⟨rfl, hs⟩)
          · exact h
          · exact hs.elim

/-- C5 (amended): a path is marked processed after `processSource` exactly when it
was already marked, or it is this source's path and the source was opened and
scanned to end-of-stream with no scanner error and no cancellation observed.
Per-row structural decode failures do not appear in the condition at all: a
malformed line only skips that row. An open failure, however, leaves the source
unmarked. -/
theorem C5_mark_iff_scanned_to_end (a : Analyser) (st : EngineState) (src : Source)
    (done : Nat → Bool) (p : String) :
    p ∈ (processSource a st src done).processedPaths ↔
      p ∈ st.processedPaths ∨ (p = src.path ∧ scannedToEnd src done = true) :=
  processSource_mark_iff a st src done p

/-! ## C6: per-folder processed totals never exceed overall totals -/

/-- The two per-folder inequalities of the claim. -/
def DetailOK (d : FolderDetail) : Prop :=
  d.filesProcessed ≤ d.totalFiles ∧ d.processedSizeBytes ≤ d.totalSizeBytes

theorem mem_setDetail (m : List (String × FolderDetail)) (k : String) (d : FolderDetail)
    (q : String × FolderDetail) (hq : q ∈ setDetail m k d) : q ∈ m ∨ q = (k, d) := by
  induction m with
  | nil => simpa [setDetail] using hq
  | cons p rest ih =>
      by_cases hpk : p.1 = k
      · simp only [setDetail, hpk, if_pos] at hq
        rcases List.mem_cons.mp hq with rfl | hq
        · exact Or.inr rfl
        · exact Or.inl (List.mem_cons_of_mem _ hq)
      · simp only [setDetail, hpk, if_false] at hq
        rcases List.mem_cons.mp hq with rfl | hq
        · exact Or.inl (List.mem_cons_self _ _)
        · rcases ih hq with h | h
          · exact Or.inl (List.mem_cons_of_mem _ h)
          · exact Or.inr h

theorem lookupD_detail_ok (m : List (String × FolderDetail)) (k : String)
    (hm : ∀ q ∈ m, DetailOK q.2) : DetailOK (lookupD m k emptyDetail) := by
  induction m with
  | nil => exact ⟨Nat.le_refl 0, Nat.le_refl 0⟩
  | cons p rest ih =>
      by_cases hpk : p.1 = k
      · simpa [lookupD, hpk] using hm p (List.mem_cons_self _ _)
      · simp only [lookupD, hpk, if_false]
        exact ih (fun q hq => hm q (List.mem_cons_of_mem _ hq))

theorem buildFolderDetails_ok (st : EngineState) (srcs : List Source)
    (acc : List (String × FolderDetail)) (hacc : ∀ q ∈ acc, DetailOK q.2) :
    ∀ q ∈ buildFolderDetails st srcs acc, DetailOK q.2 := by
  induction srcs generalizing acc with
  | nil => exact hacc
  | cons s rest ih =>
      simp only [buildFolderDetails]
      apply ih
      intro q hq
      rcases mem_setDetail _ _ _ q hq with h | rfl
      · exact hacc q h
      · obtain ⟨h1, h2⟩ := lookupD_detail_ok acc s.dir hacc
        by_cases hc : s.path ∈ st.processedPaths <;>
          simp [DetailOK, hc] at h1 h2 ⊢ <;> omega

/-- C6: in every generated report, each per-folder entry has processed-file and
processed-byte counts bounded by the corresponding totals — for every engine state
(hence for every run, cancelled or not), because each source adds to its folder's
totals unconditionally and to the processed counters only when its path is marked. -/
theorem C6_folder_processed_le_totals (a : Analyser) (st : EngineState)
    (sources : List Source) (wasCancelled isValidation : Bool) (dir : String)
    (detail : FolderDetail)
    (h : (dir, detail) ∈
      (generateReport a st sources wasCancelled isValidation).summary.folderDetails) :
    detail.filesProcessed ≤ detail.totalFiles
      ∧ detail.processedSizeBytes ≤ detail.totalSizeBytes := by
  have hfd : (generateReport a st sources wasCancelled isValidation).summary.folderDetails
      = buildFolderDetails st sources [] := rfl
  rw [hfd] at h
  exact buildFolderDetails_ok st sources [] (by simp) (dir, detail) h

/-- C6 witness: the single-source report over an unopenable 1-byte file has the
folder entry `("/r", 0 of 1 file, 0 of 1 byte)`, and the theorem applies to it. -/
theorem C6_folder_processed_le_totals_witness :
    ("/r", (⟨0, 1, 0, 1, 0, 0⟩ : FolderDetail)) ∈
        (generateReport ⟨"id", 8, true, false, false⟩ initState [srcUnopenable]
          false false).summary.folderDetails
      ∧ ((⟨0, 1, 0, 1, 0, 0⟩ : FolderDetail).filesProcessed
            ≤ (⟨0, 1, 0, 1, 0, 0⟩ : FolderDetail).totalFiles
          ∧ (⟨0, 1, 0, 1, 0, 0⟩ : FolderDetail).processedSizeBytes
            ≤ (⟨0, 1, 0, 1, 0, 0⟩ : FolderDetail).totalSizeBytes) :=
  ⟨by decide, C6_folder_processed_le_totals ⟨"id", 8, true, false, false⟩ initState
    [srcUnopenable] false false "/r" ⟨0, 1, 0, 1, 0, 0⟩ (by decide)⟩

/-! ## C10: zero-length lines advance the line number but are never counted -/

/-- Number of non-empty lines in a scanned line list. -/
def nonblankCount (ls : List Line) : Nat :=
  (ls.filter (fun l => match l with | .blank => false | _ => true)).length

theorem scanCount_noCancel (ls : List Line) (n : Nat) :
    scanCount noCancel ls n = nonblankCount ls := by
  induction ls generalizing n with
  | nil => simp [scanCount, nonblankCount]
  | cons l rest ih =>
      simp only [scanCount, noCancel, Bool.and_false, Bool.false_eq_true, if_false]
      cases l <;> simp [nonblankCount, List.filter, ih (n + 1)] <;> omega

theorem scanLinesAux_snoc_blank (a : Analyser) (src : Source) (st : EngineState)
    (ls : List Line) (n : Nat) :
    (scanLinesAux a src noCancel st (ls ++ [Line.blank]) n).1
      = (scanLinesAux a src noCancel st ls n).1 := by
  induction ls generalizing st n with
  | nil => simp [scanLinesAux, noCancel, processLine]
  | cons l rest ih =>
      simp only [List.cons_append, scanLinesAux, noCancel, Bool.and_false,
        Bool.false_eq_true, if_false]
      exact ih _ _

theorem scanLinesAux_replicate_blank (a : Analyser) (src : Source) (st : EngineState)
    (ls : List Line) (k n : Nat) :
    scanLinesAux a src noCancel st (List.replicate k Line.blank ++ ls) n
      = scanLinesAux a src noCancel st ls (n + k) := by
  induction k generalizing n with
  | zero => simp
  | succ k ih =>
      simp only [List.replicate_succ, List.cons_append, scanLinesAux, noCancel,
        Bool.and_false, Bool.false_eq_true, if_false, processLine, List.append_eq]
      rw [ih (n + 1)]
      congr 1
      omega

/-- C10: in the scan loop, (i) the total-row counter and (ii) the per-folder
rows-processed counter grow by exactly the number of non-empty lines; (iii) a
zero-length line contributes nothing to the engine state (it is not counted and
never classified); and (iv) it still advances the 1-based line number: a record
preceded by `k` zero-length lines is classified at line number `k + 1`. -/
theorem C10_blank_lines_advance_number_only (a : Analyser) (src : Source)
    (st : EngineState) (ls : List Line) (k : Nat) (fs : List (String × JsonVal)) :
    (scanLinesAux a src noCancel st ls 0).1.totalRows = st.totalRows + nonblankCount ls
  ∧ lookupD (scanLinesAux a src noCancel st ls 0).1.rowsProcessedPerFolder src.dir 0
      = lookupD st.rowsProcessedPerFolder src.dir 0 + nonblankCount ls
  ∧ (scanLinesAux a src noCancel st (ls ++ [Line.blank]) 0).1
      = (scanLinesAux a src noCancel st ls 0).1
  ∧ (scanLinesAux a src noCancel st (List.replicate k Line.blank
        ++ [Line.record fs]) 0).1
      = processLine a st src (.record fs) (k + 1) := by
  refine ⟨?_, ?_, scanLinesAux_snoc_blank a src st ls 0, ?_⟩
  · rw [scanLinesAux_totalRows, scanCount_noCancel]
  · rw [scanLinesAux_rowsPerFolder, scanCount_noCancel]
  · rw [scanLinesAux_replicate_blank]
    simp [scanLinesAux, noCancel]

/-! ## C4: canonicalization makes the content hash independent of field order -/

/-- Strict key-ordering on object fields. -/
def keyLT (a b : String × JsonVal) : Prop := a.1 < b.1

instance : IsAntisymm (String × JsonVal) keyLT :=
  ⟨fun _ _ h1 h2 => absurd h1 (lt_asymm h2)⟩

theorem canonFields_eq_map (l : List (String × JsonVal)) :
    canonFields l = l.map (fun p => (p.1, canonVal p.2)) := by
  induction l with
  | nil => rfl
  | cons p rest ih => obtain ⟨k, v⟩ := p; simp [canonFields, ih]

theorem upsert_of_fresh (acc : List (String × JsonVal)) (p : String × JsonVal)
    (h : ∀ q ∈ acc, q.1 ≠ p.1) : upsert acc p = acc ++ [p] := by
  induction acc with
  | nil => rfl
  | cons q rest ih =>
      have hq : ¬ q.1 = p.1 := h q (List.mem_cons_self _ _)
      simp only [upsert, hq, if_false, List.cons_append, List.cons.injEq, true_and]
      exact ih (fun r hr => h r (List.mem_cons_of_mem _ hr))

theorem foldl_upsert_of_nodup (l acc : List (String × JsonVal))
    (h : (acc.map Prod.fst ++ l.map Prod.fst).Nodup) :
    l.foldl upsert acc = acc ++ l := by
  induction l generalizing acc with
  | nil => simp
  | cons p rest ih =>
      have hfresh : ∀ q ∈ acc, q.1 ≠ p.1 := by
        intro q hq hc
        rcases List.nodup_append.mp h with ⟨_, _, hdisj⟩
        exact hdisj (List.mem_map_of_mem Prod.fst hq) (by simp [hc])
      rw [List.foldl_cons, upsert_of_fresh acc p hfresh, ih (acc ++ [p])
        (by simpa [List.append_assoc] using h), List.append_assoc]
      rfl

theorem dedupLast_of_nodup (l : List (String × JsonVal))
    (h : (l.map Prod.fst).Nodup) : dedupLast l = l := by
  simpa using foldl_upsert_of_nodup l [] (by simpa using h)

theorem insertionSort_keyLE_perm_eq (l1 l2 : List (String × JsonVal))
    (hperm : l1.Perm l2) (hnd : (l1.map Prod.fst).Nodup) :
    List.insertionSort keyLE l1 = List.insertionSort keyLE l2 := by
  have hp : (List.insertionSort keyLE l1).Perm (List.insertionSort keyLE l2) :=
    (List.perm_insertionSort keyLE l1).trans
      (hperm.trans (List.perm_insertionSort keyLE l2).symm)
  have strict : ∀ l : List (String × JsonVal), (l.map Prod.fst).Nodup →
      List.Sorted keyLE l → List.Sorted keyLT l := by
    intro l hl hs
    have hne : l.Pairwise (fun a b : String × JsonVal => a.1 ≠ b.1) :=
      List.pairwise_map.mp hl
    exact (hs.and hne).imp (fun h => lt_of_le_of_ne h.1 h.2)
  have hnd1 : ((List.insertionSort keyLE l1).map Prod.fst).Nodup :=
    (((List.perm_insertionSort keyLE l1).map Prod.fst).nodup_iff).mpr hnd
  have hnd2 : ((List.insertionSort keyLE l2).map Prod.fst).Nodup :=
    ((hp.map Prod.fst).nodup_iff).mp hnd1
  exact List.eq_of_perm_of_sorted hp
    (strict _ hnd1 (List.sorted_insertionSort keyLE l1))
    (strict _ hnd2 (List.sorted_insertionSort keyLE l2))

theorem unmarshalFields_perm_eq (l1 l2 : List (String × JsonVal))
    (hperm : l1.Perm l2) (hnd : (l1.map Prod.fst).Nodup) :
    unmarshalFields l1 = unmarshalFields l2 := by
  have hmapperm : (canonFields l1).Perm (canonFields l2) := by
    rw [canonFields_eq_map, canonFields_eq_map]
    exact hperm.map _
  have hkeys1 : (canonFields l1).map Prod.fst = l1.map Prod.fst := by
    rw [canonFields_eq_map, List.map_map]
    rfl
  have hnd1 : ((canonFields l1).map Prod.fst).Nodup := by rw [hkeys1]; exact hnd
  have hnd2 : ((canonFields l2).map Prod.fst).Nodup :=
    ((hmapperm.map Prod.fst).nodup_iff).mp hnd1
  unfold unmarshalFields
  rw [dedupLast_of_nodup _ hnd1, dedupLast_of_nodup _ hnd2]
  exact insertionSort_keyLE_perm_eq _ _ hmapperm hnd1

/-- C4: two source lines that decode to records with the same field values but
differently ordered fields (a permutation, with no duplicate keys) unmarshal to the
same canonical record, so `processRow`'s content hash — and hence the by-hash group
key under which their locations are filed — is identical. -/
theorem C4_hash_independent_of_field_order (l1 l2 : List (String × JsonVal))
    (hperm : l1.Perm l2) (hnd : (l1.map Prod.fst).Nodup) :
    rowHashKey (unmarshalFields l1) = rowHashKey (unmarshalFields l2) := by
  rw [unmarshalFields_perm_eq l1 l2 hperm hnd]

/-- C4 witness: the concrete lines `("b":2,"a":1)` and `("a":1,"b":2)` are
permutations with distinct keys, and their content-hash group keys coincide. -/
theorem C4_hash_independent_of_field_order_witness :
    ([(("b" : String), JsonVal.num 2), ("a", JsonVal.num 1)]).Perm
        [("a", JsonVal.num 1), ("b", JsonVal.num 2)]
      ∧ (([(("b" : String), JsonVal.num 2), ("a", JsonVal.num 1)]).map Prod.fst).Nodup
      ∧ rowHashKey (unmarshalFields [(("b" : String), JsonVal.num 2), ("a", JsonVal.num 1)])
          = rowHashKey (unmarshalFields [("a", JsonVal.num 1), ("b", JsonVal.num 2)]) :=
  ⟨List.Perm.swap _ _ _, by decide,
    C4_hash_independent_of_field_order _ _ (List.Perm.swap _ _ _) (by decide)⟩

/-! ## Per-group characterization of the run (towards C2, C3, C8) -/

/-- The by-key group for a key string. -/
def keyGroup (st : EngineState) (k : String) : List LocationInfo :=
  lookupD st.idLocations k []

/-- The by-hash group for a hash string. -/
def hashGroup (st : EngineState) (k : String) : List LocationInfo :=
  lookupD st.rowHashes k []

/-- The locations `processRow` appends to the by-key group `k` for one record. -/
def keyAdds (a : Analyser) (data : JSONData) (p : String) (n : Nat) (k : String) :
    List LocationInfo :=
  match getKey data a.uniqueKey with
  | some v =>
      if a.checkKey = true ∧ a.validateOnly = false ∧ formatValue v = k
      then [⟨p, n⟩] else []
  | none => []

/-- The locations `processRow` appends to the by-hash group `k` for one record. -/
def hashAdds (a : Analyser) (data : JSONData) (p : String) (n : Nat) (k : String) :
    List LocationInfo :=
  if a.checkKey = true ∧ a.checkRow = true ∧ a.validateOnly = false ∧ rowHashKey data = k
  then [⟨p, n⟩] else []

theorem keyGroup_processRow (a : Analyser) (st : EngineState) (data : JSONData)
    (p : String) (n : Nat) (k : String) :
    keyGroup (processRow a st data p n) k = keyGroup st k ++ keyAdds a data p n k := by
  unfold processRow keyAdds
  by_cases hk : a.checkKey
  · cases hg : getKey data a.uniqueKey with
    | none =>
        by_cases hr : a.checkRow <;> by_cases hv : a.validateOnly <;>
          simp [keyGroup, hk, hg, hr, hv]
    | some v =>
        by_cases hv : a.validateOnly
        · simp [keyGroup, hk, hg, hv]
        · by_cases hfv : formatValue v = k
          · by_cases hr : a.checkRow <;>
              simp [keyGroup, hk, hg, hv, hr, hfv, lookupD_appendLoc]
          · by_cases hr : a.checkRow <;>
              simp [keyGroup, hk, hg, hv, hr, hfv, lookupD_appendLoc,
                show ¬ k = formatValue v from fun h => hfv h.symm]
  · cases hg : getKey data a.uniqueKey <;> simp [keyGroup, hk, hg]

theorem hashGroup_processRow (a : Analyser) (st : EngineState) (data : JSONData)
    (p : String) (n : Nat) (k : String) :
    hashGroup (processRow a st data p n) k = hashGroup st k ++ hashAdds a data p n k := by
  unfold processRow hashAdds
  by_cases hk : a.checkKey
  · cases hg : getKey data a.uniqueKey with
    | none =>
        by_cases hr : a.checkRow <;> by_cases hv : a.validateOnly <;>
          by_cases hh : rowHashKey data = k <;>
            simp [hashGroup, hk, hg, hr, hv, hh, lookupD_appendLoc,
              show ∀ h : ¬ rowHashKey data = k, ¬ k = rowHashKey data from
                fun h hc => h hc.symm]
    | some v =>
        by_cases hv : a.validateOnly
        · simp [hashGroup, hk, hg, hv]
        · by_cases hr : a.checkRow <;> by_cases hh : rowHashKey data = k <;>
            simp [hashGroup, hk, hg, hr, hv, hh, lookupD_appendLoc,
              show ∀ h : ¬ rowHashKey data = k, ¬ k = rowHashKey data from
                fun h hc => h hc.symm]
  · simp [hashGroup, hk]

/-- Per-line by-key additions. -/
def lineKeyAdds (a : Analyser) (src : Source) (l : Line) (n : Nat) (k : String) :
    List LocationInfo :=
  match l with
  | .record fs => keyAdds a (unmarshalFields fs) src.path n k
  | _ => []

/-- Per-line by-hash additions. -/
def lineHashAdds (a : Analyser) (src : Source) (l : Line) (n : Nat) (k : String) :
    List LocationInfo :=
  match l with
  | .record fs => hashAdds a (unmarshalFields fs) src.path n k
  | _ => []

theorem keyGroup_processLine (a : Analyser) (st : EngineState) (src : Source)
    (l : Line) (n : Nat) (k : String) :
    keyGroup (processLine a st src l n) k = keyGroup st k ++ lineKeyAdds a src l n k := by
  cases l with
  | blank => simp [processLine, lineKeyAdds]
  | malformed => simp [processLine, lineKeyAdds, keyGroup]
  | record fs =>
      simp only [processLine, lineKeyAdds]
      rw [keyGroup_processRow]
      rfl

theorem hashGroup_processLine (a : Analyser) (st : EngineState) (src : Source)
    (l : Line) (n : Nat) (k : String) :
    hashGroup (processLine a st src l n) k = hashGroup st k ++ lineHashAdds a src l n k := by
  cases l with
  | blank => simp [processLine, lineHashAdds]
  | malformed => simp [processLine, lineHashAdds, hashGroup]
  | record fs =>
      simp only [processLine, lineHashAdds]
      rw [hashGroup_processRow]
      rfl

/-- By-key additions of the scan loop from line-count `n` on. -/
def scanKeyAdds (a : Analyser) (src : Source) (done : Nat → Bool) :
    List Line → Nat → String → List LocationInfo
  | [], _, _ => []
  | l :: rest, n, k =>
      if n % 1000 == 0 && done n then []
      else lineKeyAdds a src l (n + 1) k ++ scanKeyAdds a src done rest (n + 1) k

/-- By-hash additions of the scan loop from line-count `n` on. -/
def scanHashAdds (a : Analyser) (src : Source) (done : Nat → Bool) :
    List Line → Nat → String → List LocationInfo
  | [], _, _ => []
  | l :: rest, n, k =>
      if n % 1000 == 0 && done n then []
      else lineHashAdds a src l (n + 1) k ++ scanHashAdds a src done rest (n + 1) k

theorem keyGroup_scanLinesAux (a : Analyser) (src : Source) (done : Nat → Bool)
    (ls : List Line) (st : EngineState) (n : Nat) (k : String) :
    keyGroup (scanLinesAux a src done st ls n).1 k
      = keyGroup st k ++ scanKeyAdds a src done ls n k := by
  induction ls generalizing st n with
  | nil => simp [scanLinesAux, scanKeyAdds]
  | cons l rest ih =>
      by_cases hd : (n % 1000 == 0 && done n) = true
      · simp [scanLinesAux, scanKeyAdds, hd]
      · simp only [scanLinesAux, scanKeyAdds, hd, Bool.false_eq_true, if_false]
        rw [ih _ _, keyGroup_processLine, List.append_assoc]

theorem hashGroup_scanLinesAux (a : Analyser) (src : Source) (done : Nat → Bool)
    (ls : List Line) (st : EngineState) (n : Nat) (k : String) :
    hashGroup (scanLinesAux a src done st ls n).1 k
      = hashGroup st k ++ scanHashAdds a src done ls n k := by
  induction ls generalizing st n with
  | nil => simp [scanLinesAux, scanHashAdds]
  | cons l rest ih =>
      by_cases hd : (n % 1000 == 0 && done n) = true
      · simp [scanLinesAux, scanHashAdds, hd]
      · simp only [scanLinesAux, scanHashAdds, hd, Bool.false_eq_true, if_false]
        rw [ih _ _, hashGroup_processLine, List.append_assoc]

/-- By-key additions of processing one source under a cancellation oracle. -/
def sourceKeyAdds (a : Analyser) (src : Source) (done : Nat → Bool) (k : String) :
    List LocationInfo :=
  match src.openResult with
  | none => []
  | some (ls, _) => scanKeyAdds a src done ls 0 k

/-- By-hash additions of processing one source under a cancellation oracle. -/
def sourceHashAdds (a : Analyser) (src : Source) (done : Nat → Bool) (k : String) :
    List LocationInfo :=
  match src.openResult with
  | none => []
  | some (ls, _) => scanHashAdds a src done ls 0 k

theorem keyGroup_processSource (a : Analyser) (st : EngineState) (src : Source)
    (done : Nat → Bool) (k : String) :
    keyGroup (processSource a st src done) k
      = keyGroup st k ++ sourceKeyAdds a src done k := by
  cases hor : src.openResult with
  | none => simp [processSource, hor, sourceKeyAdds, keyGroup]
  | some lv =>
      obtain ⟨ls, scanErr⟩ := lv
      simp only [processSource, sourceKeyAdds, hor]
      split
      · exact keyGroup_scanLinesAux a src done ls _ 0 k
      · exact keyGroup_scanLinesAux a src done ls _ 0 k

theorem hashGroup_processSource (a : Analyser) (st : EngineState) (src : Source)
    (done : Nat → Bool) (k : String) :
    hashGroup (processSource a st src done) k
      = hashGroup st k ++ sourceHashAdds a src done k := by
  cases hor : src.openResult with
  | none => simp [processSource, hor, sourceHashAdds, hashGroup]
  | some lv =>
      obtain ⟨ls, scanErr⟩ := lv
      simp only [processSource, sourceHashAdds, hor]
      split
      · exact hashGroup_scanLinesAux a src done ls _ 0 k
      · exact hashGroup_scanLinesAux a src done ls _ 0 k

/-! ## Run-level lemmas -/

theorem runFull_cons (a : Analyser) (st : EngineState) (s : Source) (rest : List Source) :
    runFull a st (s :: rest) = runFull a (processSource a st s noCancel) rest := rfl

theorem runSched_cons (a : Analyser) (st : EngineState) (s : Source) (rest : List Source)
    (sched : Nat → SourceFate) :
    runSched a st (s :: rest) sched
      = runSched a (runFate a st s (sched 0)) rest (fun i => sched (i + 1)) := rfl

theorem scanKeyAdds_mem_noCancel (a : Analyser) (src : Source) (done : Nat → Bool)
    (ls : List Line) (n : Nat) (k : String) (loc : LocationInfo)
    (h : loc ∈ scanKeyAdds a src done ls n k) :
    loc ∈ scanKeyAdds a src noCancel ls n k := by
  induction ls generalizing n with
  | nil => simp [scanKeyAdds] at h
  | cons l rest ih =>
      by_cases hd : (n % 1000 == 0 && done n) = true
      · simp [scanKeyAdds, hd] at h
      · simp only [scanKeyAdds, hd, Bool.false_eq_true, if_false] at h
        simp only [scanKeyAdds, noCancel, Bool.and_false, Bool.false_eq_true, if_false]
        rcases List.mem_append.mp h with h | h
        · exact List.mem_append_left _ h
        · exact List.mem_append_right _ (ih _ h)

theorem scanHashAdds_mem_noCancel (a : Analyser) (src : Source) (done : Nat → Bool)
    (ls : List Line) (n : Nat) (k : String) (loc : LocationInfo)
    (h : loc ∈ scanHashAdds a src done ls n k) :
    loc ∈ scanHashAdds a src noCancel ls n k := by
  induction ls generalizing n with
  | nil => simp [scanHashAdds] at h
  | cons l rest ih =>
      by_cases hd : (n % 1000 == 0 && done n) = true
      · simp [scanHashAdds, hd] at h
      · simp only [scanHashAdds, hd, Bool.false_eq_true, if_false] at h
        simp only [scanHashAdds, noCancel, Bool.and_false, Bool.false_eq_true, if_false]
        rcases List.mem_append.mp h with h | h
        · exact List.mem_append_left _ h
        · exact List.mem_append_right _ (ih _ h)

theorem scanKeyAdds_of_ok (a : Analyser) (src : Source) (done : Nat → Bool)
    (ls : List Line) (n : Nat) (k : String) (h : scanOk done ls n = true) :
    scanKeyAdds a src done ls n k = scanKeyAdds a src noCancel ls n k := by
  induction ls generalizing n with
  | nil => rfl
  | cons l rest ih =>
      by_cases hd : (n % 1000 == 0 && done n) = true
      · simp [scanOk, hd] at h
      · simp only [scanOk, hd, Bool.false_eq_true, if_false] at h
        simp only [scanKeyAdds, hd, noCancel, Bool.and_false, Bool.false_eq_true, if_false]
        rw [ih _ h]

theorem scanHashAdds_of_ok (a : Analyser) (src : Source) (done : Nat → Bool)
    (ls : List Line) (n : Nat) (k : String) (h : scanOk done ls n = true) :
    scanHashAdds a src done ls n k = scanHashAdds a src noCancel ls n k := by
  induction ls generalizing n with
  | nil => rfl
  | cons l rest ih =>
      by_cases hd : (n % 1000 == 0 && done n) = true
      · simp [scanOk, hd] at h
      · simp only [scanOk, hd, Bool.false_eq_true, if_false] at h
        simp only [scanHashAdds, hd, noCancel, Bool.and_false, Bool.false_eq_true, if_false]
        rw [ih _ h]

theorem sourceKeyAdds_mem_noCancel (a : Analyser) (src : Source) (done : Nat → Bool)
    (k : String) (loc : LocationInfo) (h : loc ∈ sourceKeyAdds a src done k) :
    loc ∈ sourceKeyAdds a src noCancel k := by
  cases hor : src.openResult with
  | none => simp [sourceKeyAdds, hor] at h
  | some lv =>
      obtain ⟨ls, scanErr⟩ := lv
      simp only [sourceKeyAdds, hor] at h ⊢
      exact scanKeyAdds_mem_noCancel a src done ls 0 k loc h

theorem sourceHashAdds_mem_noCancel (a : Analyser) (src : Source) (done : Nat → Bool)
    (k : String) (loc : LocationInfo) (h : loc ∈ sourceHashAdds a src done k) :
    loc ∈ sourceHashAdds a src noCancel k := by
  cases hor : src.openResult with
  | none => simp [sourceHashAdds, hor] at h
  | some lv =>
      obtain ⟨ls, scanErr⟩ := lv
      simp only [sourceHashAdds, hor] at h ⊢
      exact scanHashAdds_mem_noCancel a src done ls 0 k loc h

theorem sourceKeyAdds_of_scannedToEnd (a : Analyser) (src : Source) (done : Nat → Bool)
    (k : String) (h : scannedToEnd src done = true) :
    sourceKeyAdds a src done k = sourceKeyAdds a src noCancel k := by
  unfold scannedToEnd at h
  unfold sourceKeyAdds
  cases hor : src.openResult with
  | none => rfl
  | some lv =>
      obtain ⟨ls, scanErr⟩ := lv
      rw [hor] at h
      exact scanKeyAdds_of_ok a src done ls 0 k (Bool.and_eq_true .. |>.mp h).1

theorem sourceHashAdds_of_scannedToEnd (a : Analyser) (src : Source) (done : Nat → Bool)
    (k : String) (h : scannedToEnd src done = true) :
    sourceHashAdds a src done k = sourceHashAdds a src noCancel k := by
  unfold scannedToEnd at h
  unfold sourceHashAdds
  cases hor : src.openResult with
  | none => rfl
  | some lv =>
      obtain ⟨ls, scanErr⟩ := lv
      rw [hor] at h
      exact scanHashAdds_of_ok a src done ls 0 k (Bool.and_eq_true .. |>.mp h).1

theorem keyGroup_runFate_mono (a : Analyser) (st : EngineState) (src : Source)
    (f : SourceFate) (k : String) (loc : LocationInfo) (h : loc ∈ keyGroup st k) :
    loc ∈ keyGroup (runFate a st src f) k := by
  cases f with
  | skip => exact h
  | scan done =>
      rw [runFate, keyGroup_processSource]
      exact List.mem_append_left _ h

theorem hashGroup_runFate_mono (a : Analyser) (st : EngineState) (src : Source)
    (f : SourceFate) (k : String) (loc : LocationInfo) (h : loc ∈ hashGroup st k) :
    loc ∈ hashGroup (runFate a st src f) k := by
  cases f with
  | skip => exact h
  | scan done =>
      rw [runFate, hashGroup_processSource]
      exact List.mem_append_left _ h

theorem keyGroup_runSched_mono (a : Analyser) (srcs : List Source) (st : EngineState)
    (sched : Nat → SourceFate) (k : String) (loc : LocationInfo)
    (h : loc ∈ keyGroup st k) : loc ∈ keyGroup (runSched a st srcs sched) k := by
  induction srcs generalizing st sched with
  | nil => exact h
  | cons s rest ih =>
      exact ih _ _ (keyGroup_runFate_mono a st s (sched 0) k loc h)

theorem hashGroup_runSched_mono (a : Analyser) (srcs : List Source) (st : EngineState)
    (sched : Nat → SourceFate) (k : String) (loc : LocationInfo)
    (h : loc ∈ hashGroup st k) : loc ∈ hashGroup (runSched a st srcs sched) k := by
  induction srcs generalizing st sched with
  | nil => exact h
  | cons s rest ih =>
      exact ih _ _ (hashGroup_runFate_mono a st s (sched 0) k loc h)

theorem keyGroup_runSched_cases (a : Analyser) (srcs : List Source) (st : EngineState)
    (sched : Nat → SourceFate) (k : String) (loc : LocationInfo)
    (h : loc ∈ keyGroup (runSched a st srcs sched) k) :
    loc ∈ keyGroup st k ∨ ∃ s ∈ srcs, loc ∈ sourceKeyAdds a s noCancel k := by
  induction srcs generalizing st sched with
  | nil => exact Or.inl h
  | cons s rest ih =>
      rcases ih _ _ h with h1 | ⟨s', hs', hl⟩
      · cases hf : sched 0 with
        | skip => rw [hf] at h1; exact Or.inl h1
        | scan done =>
            rw [hf, runFate, keyGroup_processSource] at h1
            rcases List.mem_append.mp h1 with h2 | h2
            · exact Or.inl h2
            · exact Or.inr ⟨s, List.mem_cons_self _ _,
                sourceKeyAdds_mem_noCancel a s done k loc h2⟩
      · exact Or.inr ⟨s', List.mem_cons_of_mem _ hs', hl⟩

theorem hashGroup_runSched_cases (a : Analyser) (srcs : List Source) (st : EngineState)
    (sched : Nat → SourceFate) (k : String) (loc : LocationInfo)
    (h : loc ∈ hashGroup (runSched a st srcs sched) k) :
    loc ∈ hashGroup st k ∨ ∃ s ∈ srcs, loc ∈ sourceHashAdds a s noCancel k := by
  induction srcs generalizing st sched with
  | nil => exact Or.inl h
  | cons s rest ih =>
      rcases ih _ _ h with h1 | ⟨s', hs', hl⟩
      · cases hf : sched 0 with
        | skip => rw [hf] at h1; exact Or.inl h1
        | scan done =>
            rw [hf, runFate, hashGroup_processSource] at h1
            rcases List.mem_append.mp h1 with h2 | h2
            · exact Or.inl h2
            · exact Or.inr ⟨s, List.mem_cons_self _ _,
                sourceHashAdds_mem_noCancel a s done k loc h2⟩
      · exact Or.inr ⟨s', List.mem_cons_of_mem _ hs', hl⟩

theorem keyGroup_runFull_complete (a : Analyser) (srcs : List Source) (st : EngineState)
    (k : String) (loc : LocationInfo) (s : Source) (hs : s ∈ srcs)
    (hl : loc ∈ sourceKeyAdds a s noCancel k) :
    loc ∈ keyGroup (runFull a st srcs) k := by
  induction srcs generalizing st with
  | nil => cases hs
  | cons s0 rest ih =>
      rw [runFull_cons]
      rcases List.mem_cons.mp hs with rfl | hs'
      · apply keyGroup_runSched_mono
        rw [keyGroup_processSource]
        exact List.mem_append_right _ hl
      · exact ih _ hs'

theorem hashGroup_runFull_complete (a : Analyser) (srcs : List Source) (st : EngineState)
    (k : String) (loc : LocationInfo) (s : Source) (hs : s ∈ srcs)
    (hl : loc ∈ sourceHashAdds a s noCancel k) :
    loc ∈ hashGroup (runFull a st srcs) k := by
  induction srcs generalizing st with
  | nil => cases hs
  | cons s0 rest ih =>
      rw [runFull_cons]
      rcases List.mem_cons.mp hs with rfl | hs'
      · apply hashGroup_runSched_mono
        rw [hashGroup_processSource]
        exact List.mem_append_right _ hl
      · exact ih _ hs'

theorem processedPaths_runFate_mono (a : Analyser) (st : EngineState) (src : Source)
    (f : SourceFate) (q : String) (h : q ∈ st.processedPaths) :
    q ∈ (runFate a st src f).processedPaths := by
  cases f with
  | skip => exact h
  | scan done => exact (processSource_mark_iff a st src done q).mpr (Or.inl h)

theorem processedPaths_runSched_mono (a : Analyser) (srcs : List Source)
    (st : EngineState) (sched : Nat → SourceFate) (q : String)
    (h : q ∈ st.processedPaths) : q ∈ (runSched a st srcs sched).processedPaths := by
  induction srcs generalizing st sched with
  | nil => exact h
  | cons s rest ih =>
      exact ih _ _ (processedPaths_runFate_mono a st s (sched 0) q h)

theorem processedPaths_runFate_cases (a : Analyser) (st : EngineState) (src : Source)
    (f : SourceFate) (q : String) (h : q ∈ (runFate a st src f).processedPaths) :
    q ∈ st.processedPaths ∨ q = src.path := by
  cases f with
  | skip => exact Or.inl h
  | scan done =>
      rcases (processSource_mark_iff a st src done q).mp h with h1 | ⟨h1, _⟩
      · exact Or.inl h1
      · exact Or.inr h1

theorem processedPaths_runSched_cases (a : Analyser) (srcs : List Source)
    (st : EngineState) (sched : Nat → SourceFate) (q : String)
    (h : q ∈ (runSched a st srcs sched).processedPaths) :
    q ∈ st.processedPaths ∨ q ∈ srcs.map Source.path := by
  induction srcs generalizing st sched with
  | nil => exact Or.inl h
  | cons s rest ih =>
      rcases ih _ _ h with h1 | h1
      · rcases processedPaths_runFate_cases a st s (sched 0) q h1 with h2 | rfl
        · exact Or.inl h2
        · exact Or.inr (by simp)
      · exact Or.inr (List.mem_cons_of_mem _ h1)

theorem mem_GetUnprocessedSources (st : EngineState) (srcs : List Source) (s : Source) :
    s ∈ GetUnprocessedSources st srcs ↔ s ∈ srcs ∧ s.path ∉ st.processedPaths := by
  simp [GetUnprocessedSources]

theorem marked_key_contrib (a : Analyser) (srcs : List Source) (sched : Nat → SourceFate)
    (st : EngineState) (s : Source) (k : String) (loc : LocationInfo)
    (hnd : (srcs.map Source.path).Nodup) (hs : s ∈ srcs)
    (hnotin : s.path ∉ st.processedPaths)
    (hmark : s.path ∈ (runSched a st srcs sched).processedPaths)
    (hl : loc ∈ sourceKeyAdds a s noCancel k) :
    loc ∈ keyGroup (runSched a st srcs sched) k := by
  induction srcs generalizing st sched with
  | nil => cases hs
  | cons s0 rest ih =>
      simp only [List.map_cons, List.nodup_cons] at hnd
      obtain ⟨hnd0, hndr⟩ := hnd
      rw [runSched_cons] at hmark ⊢
      rcases List.mem_cons.mp hs with rfl | hsr
      · by_cases hm1 : s.path ∈ (runFate a st s (sched 0)).processedPaths
        · cases hf : sched 0 with
          | skip =>
              rw [hf] at hm1
              exact absurd hm1 hnotin
          | scan done =>
              rw [hf] at hm1
              rcases (processSource_mark_iff a st s done s.path).mp hm1 with h | ⟨_, hdone⟩
              · exact absurd h hnotin
              · apply keyGroup_runSched_mono
                rw [runFate, keyGroup_processSource]
                apply List.mem_append_right
                rw [sourceKeyAdds_of_scannedToEnd a s done k hdone]
                exact hl
        · rcases processedPaths_runSched_cases a rest _ _ s.path hmark with h | h
          · exact absurd h hm1
          · exact absurd h hnd0
      · have hne : s.path ≠ s0.path := by
          intro hc
          exact hnd0 (by rw [← hc]; exact List.mem_map_of_mem Source.path hsr)
        have hnotin1 : s.path ∉ (runFate a st s0 (sched 0)).processedPaths := by
          intro hmem
          rcases processedPaths_runFate_cases a st s0 (sched 0) s.path hmem with h | h
          · exact hnotin h
          · exact hne h
        exact ih _ _ hndr hsr hnotin1 hmark

theorem marked_hash_contrib (a : Analyser) (srcs : List Source) (sched : Nat → SourceFate)
    (st : EngineState) (s : Source) (k : String) (loc : LocationInfo)
    (hnd : (srcs.map Source.path).Nodup) (hs : s ∈ srcs)
    (hnotin : s.path ∉ st.processedPaths)
    (hmark : s.path ∈ (runSched a st srcs sched).processedPaths)
    (hl : loc ∈ sourceHashAdds a s noCancel k) :
    loc ∈ hashGroup (runSched a st srcs sched) k := by
  induction srcs generalizing st sched with
  | nil => cases hs
  | cons s0 rest ih =>
      simp only [List.map_cons, List.nodup_cons] at hnd
      obtain ⟨hnd0, hndr⟩ := hnd
      rw [runSched_cons] at hmark ⊢
      rcases List.mem_cons.mp hs with rfl | hsr
      · by_cases hm1 : s.path ∈ (runFate a st s (sched 0)).processedPaths
        · cases hf : sched 0 with
          | skip =>
              rw [hf] at hm1
              exact absurd hm1 hnotin
          | scan done =>
              rw [hf] at hm1
              rcases (processSource_mark_iff a st s done s.path).mp hm1 with h | ⟨_, hdone⟩
              · exact absurd h hnotin
              · apply hashGroup_runSched_mono
                rw [runFate, hashGroup_processSource]
                apply List.mem_append_right
                rw [sourceHashAdds_of_scannedToEnd a s done k hdone]
                exact hl
        · rcases processedPaths_runSched_cases a rest _ _ s.path hmark with h | h
          · exact absurd h hm1
          · exact absurd h hnd0
      · have hne : s.path ≠ s0.path := by
          intro hc
          exact hnd0 (by rw [← hc]; exact List.mem_map_of_mem Source.path hsr)
        have hnotin1 : s.path ∉ (runFate a st s0 (sched 0)).processedPaths := by
          intro hmem
          rcases processedPaths_runFate_cases a st s0 (sched 0) s.path hmem with h | h
          · exact hnotin h
          · exact hne h
        exact ih _ _ hndr hsr hnotin1 hmark

/-! ## C8: what is left unprocessed after an uninterrupted run -/

theorem runFull_marks_clean (a : Analyser) (srcs : List Source) (st : EngineState)
    (s : Source) (hs : s ∈ srcs) (hclean : scannedToEnd s noCancel = true) :
    s.path ∈ (runFull a st srcs).processedPaths := by
  induction srcs generalizing st with
  | nil => cases hs
  | cons s0 rest ih =>
      rw [runFull_cons]
      rcases List.mem_cons.mp hs with rfl | hs'
      · exact processedPaths_runSched_mono a rest _ fullSched s.path
          ((processSource_mark_iff a st s noCancel s.path).mpr (Or.inr ⟨rfl, hclean⟩))
      · exact ih _ hs'

/-- C8 counterexample: a run over one unopenable source completes without any
cancellation, yet `GetUnprocessedSources` afterwards returns that source, not the
empty set: the open failure left it unprocessed. -/
theorem C8_counterexample_unopenable_source_remains :
    GetUnprocessedSources (runFull ⟨"id", 8, true, false, false⟩ initState [srcUnopenable])
      [srcUnopenable] = [srcUnopenable] := rfl

/-- C8 (amended): after an uninterrupted run in which every source was opened and
scanned to end-of-stream without a scanner error, `GetUnprocessedSources` over the
same source list returns the empty list. -/
theorem C8_unprocessed_empty_after_clean_run (a : Analyser) (srcs : List Source)
    (hclean : ∀ s ∈ srcs, scannedToEnd s noCancel = true) :
    GetUnprocessedSources (runFull a initState srcs) srcs = [] := by
  rw [GetUnprocessedSources]
  rw [List.filter_eq_nil_iff]
  intro s hs
  have hmark := runFull_marks_clean a srcs initState s hs (hclean s hs)
  simp [hmark]

/-- A concrete cleanly-scanning one-row source used in witnesses. -/
def srcClean : Source := ⟨"/d/a.json", 10, some ([.record [("id", JsonVal.str "a")]], false)⟩

/-- C8 witness: a clean single-source run leaves nothing unprocessed. -/
theorem C8_unprocessed_empty_after_clean_run_witness :
    (∀ s ∈ [srcClean], scannedToEnd s noCancel = true)
      ∧ GetUnprocessedSources
          (runFull ⟨"id", 8, true, false, false⟩ initState [srcClean]) [srcClean] = [] :=
  ⟨by decide, C8_unprocessed_empty_after_clean_run ⟨"id", 8, true, false, false⟩
    [srcClean] (by decide)⟩

/-! ## C2: cancel plus continue accumulates the same groups as one run -/

/-- C2: for a fresh engine, a first run under any schedule (cancelled sources may be
skipped or partially scanned), followed by an uninterrupted Continue run over
`GetUnprocessedSources` on the same state, yields by-key and by-hash group spaces
with exactly the same locations per group key (set equality, order-independent) as
one uninterrupted run over the full source list, provided the source list has
pairwise-distinct canonical paths (which discovery guarantees, cf. C9). -/
theorem C2_continue_matches_single_run (a : Analyser) (srcs : List Source)
    (sched : Nat → SourceFate) (hnd : (srcs.map Source.path).Nodup)
    (k : String) (loc : LocationInfo) :
    (loc ∈ keyGroup (runFull a (runSched a initState srcs sched)
          (GetUnprocessedSources (runSched a initState srcs sched) srcs)) k
        ↔ loc ∈ keyGroup (runFull a initState srcs) k)
  ∧ (loc ∈ hashGroup (runFull a (runSched a initState srcs sched)
          (GetUnprocessedSources (runSched a initState srcs sched) srcs)) k
        ↔ loc ∈ hashGroup (runFull a initState srcs) k) := by
  constructor
  · constructor
    · intro h
      rcases keyGroup_runSched_cases a _ _ fullSched k loc h with h1 | ⟨s, hs, hl⟩
      · rcases keyGroup_runSched_cases a srcs initState sched k loc h1 with h2 | ⟨s, hs, hl⟩
        · cases h2
        · exact keyGroup_runFull_complete a srcs initState k loc s hs hl
      · exact keyGroup_runFull_complete a srcs initState k loc s
          ((mem_GetUnprocessedSources _ srcs s).mp hs).1 hl
    · intro h
      rcases keyGroup_runSched_cases a srcs initState fullSched k loc h with h1 | ⟨s, hs, hl⟩
      · cases h1
      · by_cases hm : s.path ∈ (runSched a initState srcs sched).processedPaths
        · exact keyGroup_runSched_mono a _ _ fullSched k loc
            (marked_key_contrib a srcs sched initState s k loc hnd hs
              (List.not_mem_nil _) hm hl)
        · exact keyGroup_runFull_complete a _ _ k loc s
            ((mem_GetUnprocessedSources _ srcs s).mpr ⟨hs, hm⟩) hl
  · constructor
    · intro h
      rcases hashGroup_runSched_cases a _ _ fullSched k loc h with h1 | ⟨s, hs, hl⟩
      · rcases hashGroup_runSched_cases a srcs initState sched k loc h1 with h2 | ⟨s, hs, hl⟩
        · cases h2
        · exact hashGroup_runFull_complete a srcs initState k loc s hs hl
      · exact hashGroup_runFull_complete a srcs initState k loc s
          ((mem_GetUnprocessedSources _ srcs s).mp hs).1 hl
    · intro h
      rcases hashGroup_runSched_cases a srcs initState fullSched k loc h with h1 | ⟨s, hs, hl⟩
      · cases h1
      · by_cases hm : s.path ∈ (runSched a initState srcs sched).processedPaths
        · exact hashGroup_runSched_mono a _ _ fullSched k loc
            (marked_hash_contrib a srcs sched initState s k loc hnd hs
              (List.not_mem_nil _) hm hl)
        · exact hashGroup_runFull_complete a _ _ k loc s
            ((mem_GetUnprocessedSources _ srcs s).mpr ⟨hs, hm⟩) hl

/-- The engine configuration used by several witnesses: key `id`, eight workers,
key-checking on, row-checking off, validation off. -/
def cfgW : Analyser := ⟨"id", 8, true, false, false⟩

/-- A first-run schedule that never claims any source. -/
def skipSched : Nat → SourceFate := fun _ => .skip

/-- The location of the one record of `srcClean`. -/
def locW : LocationInfo := ⟨"/d/a.json", 1⟩

/-- C2 witness: one clean source skipped entirely by the first run, then picked up
by the Continue run; locations agree with the single uninterrupted run. -/
theorem C2_continue_matches_single_run_witness :
    (([srcClean].map Source.path).Nodup)
      ∧ ((locW ∈ keyGroup (runFull cfgW (runSched cfgW initState [srcClean] skipSched)
              (GetUnprocessedSources (runSched cfgW initState [srcClean] skipSched)
                [srcClean])) "a"
            ↔ locW ∈ keyGroup (runFull cfgW initState [srcClean]) "a")
          ∧ (locW ∈ hashGroup (runFull cfgW (runSched cfgW initState [srcClean] skipSched)
              (GetUnprocessedSources (runSched cfgW initState [srcClean] skipSched)
                [srcClean])) "a"
            ↔ locW ∈ hashGroup (runFull cfgW initState [srcClean]) "a")) :=
  ⟨by decide, C2_continue_matches_single_run cfgW [srcClean] skipSched (by decide) "a" locW⟩

/-! ## Counting lemmas (towards C3 and C7) -/

/-- Total number of recorded locations across all groups of a group map. -/
def groupsTotal (m : List (String × List LocationInfo)) : Nat :=
  (m.map (fun p => p.2.length)).sum

/-- Total of all per-folder counters. -/
def countersTotal (m : List (String × Nat)) : Nat :=
  (m.map Prod.snd).sum

theorem groupsTotal_appendLoc (m : List (String × List LocationInfo)) (k : String)
    (loc : LocationInfo) : groupsTotal (appendLoc m k loc) = groupsTotal m + 1 := by
  induction m with
  | nil => simp [appendLoc, groupsTotal]
  | cons p rest ih =>
      by_cases hpk : p.1 = k
      · simp [appendLoc, groupsTotal, hpk]
        omega
      · simp [appendLoc, groupsTotal, hpk] at ih ⊢
        omega

theorem countersTotal_bumpCount (m : List (String × Nat)) (k : String) :
    countersTotal (bumpCount m k) = countersTotal m + 1 := by
  induction m with
  | nil => simp [bumpCount, countersTotal]
  | cons p rest ih =>
      by_cases hpk : p.1 = k
      · simp [bumpCount, countersTotal, hpk]
        omega
      · simp [bumpCount, countersTotal, hpk] at ih ⊢
        omega

theorem lookupD_zero_of_not_mem (m : List (String × Nat)) (k : String)
    (h : k ∉ m.map Prod.fst) : lookupD m k 0 = 0 := by
  induction m with
  | nil => rfl
  | cons p rest ih =>
      simp only [List.map_cons, List.mem_cons] at h
      push_neg at h
      simp only [lookupD, show ¬ p.1 = k from fun hc => h.1 hc.symm, if_false]
      exact ih h.2

theorem sum_map_add {α : Type} (K : List α) (f g : α → Nat) :
    (K.map (fun x => f x + g x)).sum = (K.map f).sum + (K.map g).sum := by
  induction K with
  | nil => rfl
  | cons x rest ih => simp [ih]; omega

theorem sum_ite_single (K : List String) (k0 : String) (v : Nat) (hnd : K.Nodup)
    (hk : k0 ∈ K) : (K.map (fun k => if k0 = k then v else 0)).sum = v := by
  induction K with
  | nil => cases hk
  | cons x rest ih =>
      simp only [List.nodup_cons] at hnd
      rcases List.mem_cons.mp hk with rfl | hk'
      · have : ∀ k ∈ rest, (if k0 = k then v else 0) = 0 := by
          intro k hkr
          have : ¬ k0 = k := fun hc => hnd.1 (hc ▸ hkr)
          simp [this]
        simp [List.map_congr_left this]
      · have hne : ¬ k0 = x := fun hc => hnd.1 (hc ▸ hk')
        simp [hne, ih hnd.2 hk']

theorem sum_lookupD_over_keys (m : List (String × Nat)) (K : List String)
    (hndK : K.Nodup) (hndm : (m.map Prod.fst).Nodup)
    (hsub : ∀ k ∈ m.map Prod.fst, k ∈ K) :
    (K.map (fun k => lookupD m k 0)).sum = countersTotal m := by
  induction m with
  | nil => simp [lookupD, countersTotal]
  | cons p rest ih =>
      obtain ⟨k0, v⟩ := p
      simp only [List.map_cons, List.nodup_cons] at hndm
      have hk0 : k0 ∈ K := hsub k0 (by simp)
      have hstep : ∀ k ∈ K, lookupD ((k0, v) :: rest) k 0
          = lookupD rest k 0 + (if k0 = k then v else 0) := by
        intro k _
        by_cases hkk : k0 = k
        · subst hkk
          simp [lookupD, lookupD_zero_of_not_mem rest k0 hndm.1]
        · simp [lookupD, hkk, show ¬ k = k0 from fun hc => hkk hc.symm]
      rw [List.map_congr_left hstep, sum_map_add, sum_ite_single K k0 v hndK hk0,
        ih hndm.2 (fun k hk => hsub k (by simp [hk]))]
      simp [countersTotal]
      omega

theorem idLoop_total (m : List (String × List LocationInfo))
    (acc : Nat × Nat × List (String × List LocationInfo) × List (String × Nat)) :
    (idLoop m acc).1 = acc.1 + groupsTotal m := by
  induction m generalizing acc with
  | nil => simp [idLoop, groupsTotal]
  | cons p rest ih =>
      obtain ⟨id, locs⟩ := p
      obtain ⟨t, u, d, f⟩ := acc
      by_cases hlen : locs.length > 1
      · simp only [idLoop, hlen, if_pos]
        rw [ih]
        simp [groupsTotal]
        omega
      · simp only [idLoop, hlen, if_false]
        rw [ih]
        simp [groupsTotal]
        omega

/-- Whether one decoded record counts as a key occurrence: key-checking enabled and
the configured key present (this is independent of validation mode — the counter
bump precedes the validation early-return in `processRow`). -/
def rowKeyHit (uniqueKey : String) (checkKey : Bool) (data : JSONData) : Nat :=
  if checkKey = true ∧ (getKey data uniqueKey).isSome = true then 1 else 0

theorem processRow_keysFound_total (a : Analyser) (st : EngineState) (data : JSONData)
    (p : String) (n : Nat) :
    countersTotal (processRow a st data p n).keysFoundPerFolder
      = countersTotal st.keysFoundPerFolder + rowKeyHit a.uniqueKey a.checkKey data := by
  unfold processRow rowKeyHit
  by_cases hk : a.checkKey
  · cases hg : getKey data a.uniqueKey with
    | none =>
        by_cases hr : a.checkRow <;> by_cases hv : a.validateOnly <;>
          simp [hk, hg, hr, hv]
    | some v =>
        by_cases hv : a.validateOnly
        · simp [hk, hg, hv, countersTotal_bumpCount]
        · by_cases hr : a.checkRow <;> simp [hk, hg, hv, hr, countersTotal_bumpCount]
  · cases hg : getKey data a.uniqueKey <;> simp [hk, hg]

theorem processRow_idLocations_total (a : Analyser) (st : EngineState) (data : JSONData)
    (p : String) (n : Nat) (hv : a.validateOnly = false) :
    groupsTotal (processRow a st data p n).idLocations
      = groupsTotal st.idLocations + rowKeyHit a.uniqueKey a.checkKey data := by
  unfold processRow rowKeyHit
  by_cases hk : a.checkKey
  · cases hg : getKey data a.uniqueKey with
    | none => by_cases hr : a.checkRow <;> simp [hk, hg, hr, hv]
    | some v =>
        by_cases hr : a.checkRow <;> simp [hk, hg, hr, hv, groupsTotal_appendLoc]
  · cases hg : getKey data a.uniqueKey <;> simp [hk, hg]

/-- Key-occurrence count of one scanned line. -/
def lineKeyHit (uniqueKey : String) (checkKey : Bool) (l : Line) : Nat :=
  match l with
  | .record fs => rowKeyHit uniqueKey checkKey (unmarshalFields fs)
  | _ => 0

theorem processLine_keysFound_total (a : Analyser) (st : EngineState) (src : Source)
    (l : Line) (n : Nat) :
    countersTotal (processLine a st src l n).keysFoundPerFolder
      = countersTotal st.keysFoundPerFolder + lineKeyHit a.uniqueKey a.checkKey l := by
  cases l with
  | blank => simp [processLine, lineKeyHit]
  | malformed => simp [processLine, lineKeyHit]
  | record fs =>
      exact processRow_keysFound_total a
        { st with
          totalRows := st.totalRows + 1
          rowsProcessedPerFolder := bumpCount st.rowsProcessedPerFolder src.dir }
        (unmarshalFields fs) src.path n

theorem processLine_idLocations_total (a : Analyser) (st : EngineState) (src : Source)
    (l : Line) (n : Nat) (hv : a.validateOnly = false) :
    groupsTotal (processLine a st src l n).idLocations
      = groupsTotal st.idLocations + lineKeyHit a.uniqueKey a.checkKey l := by
  cases l with
  | blank => simp [processLine, lineKeyHit]
  | malformed => simp [processLine, lineKeyHit]
  | record fs =>
      exact processRow_idLocations_total a
        { st with
          totalRows := st.totalRows + 1
          rowsProcessedPerFolder := bumpCount st.rowsProcessedPerFolder src.dir }
        (unmarshalFields fs) src.path n hv

/-- Key-occurrence count of a list of scanned lines. -/
def linesKeyHits (uniqueKey : String) (checkKey : Bool) : List Line → Nat
  | [] => 0
  | l :: rest => lineKeyHit uniqueKey checkKey l + linesKeyHits uniqueKey checkKey rest

theorem scanLinesAux_keysFound_total (a : Analyser) (src : Source) (ls : List Line)
    (st : EngineState) (n : Nat) :
    countersTotal (scanLinesAux a src noCancel st ls n).1.keysFoundPerFolder
      = countersTotal st.keysFoundPerFolder + linesKeyHits a.uniqueKey a.checkKey ls := by
  induction ls generalizing st n with
  | nil => simp [scanLinesAux, linesKeyHits]
  | cons l rest ih =>
      simp only [scanLinesAux, noCancel, Bool.and_false, Bool.false_eq_true, if_false]
      rw [ih _ _, processLine_keysFound_total]
      simp only [linesKeyHits]
      omega

theorem scanLinesAux_idLocations_total (a : Analyser) (src : Source) (ls : List Line)
    (st : EngineState) (n : Nat) (hv : a.validateOnly = false) :
    groupsTotal (scanLinesAux a src noCancel st ls n).1.idLocations
      = groupsTotal st.idLocations + linesKeyHits a.uniqueKey a.checkKey ls := by
  induction ls generalizing st n with
  | nil => simp [scanLinesAux, linesKeyHits]
  | cons l rest ih =>
      simp only [scanLinesAux, noCancel, Bool.and_false, Bool.false_eq_true, if_false]
      rw [ih _ _, processLine_idLocations_total a st src l (n + 1) hv]
      simp only [linesKeyHits]
      omega

/-- Key-occurrence count of one fully scanned source. -/
def sourceKeyHits (uniqueKey : String) (checkKey : Bool) (src : Source) : Nat :=
  match src.openResult with
  | none => 0
  | some (ls, _) => linesKeyHits uniqueKey checkKey ls

theorem processSource_keysFound_total (a : Analyser) (st : EngineState) (src : Source) :
    countersTotal (processSource a st src noCancel).keysFoundPerFolder
      = countersTotal st.keysFoundPerFolder + sourceKeyHits a.uniqueKey a.checkKey src := by
  cases hor : src.openResult with
  | none => simp [processSource, hor, sourceKeyHits]
  | some lv =>
      obtain ⟨ls, scanErr⟩ := lv
      simp only [processSource, sourceKeyHits, hor]
      split
      · exact scanLinesAux_keysFound_total a src ls _ 0
      · exact scanLinesAux_keysFound_total a src ls _ 0

theorem processSource_idLocations_total (a : Analyser) (st : EngineState) (src : Source)
    (hv : a.validateOnly = false) :
    groupsTotal (processSource a st src noCancel).idLocations
      = groupsTotal st.idLocations + sourceKeyHits a.uniqueKey a.checkKey src := by
  cases hor : src.openResult with
  | none => simp [processSource, hor, sourceKeyHits]
  | some lv =>
      obtain ⟨ls, scanErr⟩ := lv
      simp only [processSource, sourceKeyHits, hor]
      split
      · exact scanLinesAux_idLocations_total a src ls _ 0 hv
      · exact scanLinesAux_idLocations_total a src ls _ 0 hv

/-- Key-occurrence count of a fully scanned source list. -/
def srcsKeyHits (uniqueKey : String) (checkKey : Bool) : List Source → Nat
  | [] => 0
  | s :: rest => sourceKeyHits uniqueKey checkKey s + srcsKeyHits uniqueKey checkKey rest

theorem runFull_keysFound_total (a : Analyser) (srcs : List Source) (st : EngineState) :
    countersTotal (runFull a st srcs).keysFoundPerFolder
      = countersTotal st.keysFoundPerFolder + srcsKeyHits a.uniqueKey a.checkKey srcs := by
  induction srcs generalizing st with
  | nil => simp [runFull, runSched, srcsKeyHits]
  | cons s rest ih =>
      rw [runFull_cons, ih, processSource_keysFound_total]
      simp only [srcsKeyHits]
      omega

theorem runFull_idLocations_total (a : Analyser) (srcs : List Source) (st : EngineState)
    (hv : a.validateOnly = false) :
    groupsTotal (runFull a st srcs).idLocations
      = groupsTotal st.idLocations + srcsKeyHits a.uniqueKey a.checkKey srcs := by
  induction srcs generalizing st with
  | nil => simp [runFull, runSched, srcsKeyHits]
  | cons s rest ih =>
      rw [runFull_cons, ih, processSource_idLocations_total a st s hv]
      simp only [srcsKeyHits]
      omega

theorem srcsKeyHits_of_not_checkKey (uniqueKey : String) (srcs : List Source) :
    srcsKeyHits uniqueKey false srcs = 0 := by
  induction srcs with
  | nil => rfl
  | cons s rest ih =>
      have hsrc : sourceKeyHits uniqueKey false s = 0 := by
        have hlines : ∀ ls : List Line, linesKeyHits uniqueKey false ls = 0 := by
          intro ls
          induction ls with
          | nil => rfl
          | cons l r ihl =>
              have : lineKeyHit uniqueKey false l = 0 := by
                cases l <;> simp [lineKeyHit, rowKeyHit]
              simp [linesKeyHits, this, ihl]
        cases hor : s.openResult with
        | none => simp [sourceKeyHits, hor]
        | some lv => obtain ⟨ls, e⟩ := lv; simp [sourceKeyHits, hor, hlines]
      simp [srcsKeyHits, hsrc, ih]

/-! ## Keys of the per-folder counter map -/

theorem bumpCount_keys (m : List (String × Nat)) (k : String) :
    (bumpCount m k).map Prod.fst
      = if k ∈ m.map Prod.fst then m.map Prod.fst else m.map Prod.fst ++ [k] := by
  induction m with
  | nil => simp [bumpCount]
  | cons p rest ih =>
      by_cases hpk : p.1 = k
      · simp [bumpCount, hpk]
      · have hne : ¬ k = p.1 := fun hc => hpk hc.symm
        by_cases hin : k ∈ rest.map Prod.fst <;>
          simp [bumpCount, hpk, hin, hne, ih]

/-- The per-folder counter map has pairwise-distinct keys, all drawn from `ds`. -/
def KeysInv (m : List (String × Nat)) (ds : List String) : Prop :=
  (m.map Prod.fst).Nodup ∧ ∀ k ∈ m.map Prod.fst, k ∈ ds

theorem keysInv_bumpCount (m : List (String × Nat)) (ds : List String) (k : String)
    (h : KeysInv m ds) (hk : k ∈ ds) : KeysInv (bumpCount m k) ds := by
  obtain ⟨hnd, hsub⟩ := h
  rw [KeysInv, bumpCount_keys]
  by_cases hin : k ∈ m.map Prod.fst
  · rw [if_pos hin]
    exact ⟨hnd, hsub⟩
  · simp only [hin, if_false]
    constructor
    · refine List.Nodup.append hnd (by simp) ?_
      intro x hx hy
      simp only [List.mem_singleton] at hy
      subst hy
      exact hin hx
    · intro q hq
      rcases List.mem_append.mp hq with h | h
      · exact hsub q h
      · simp only [List.mem_singleton] at h
        subst h
        exact hk

theorem processRow_keysFound_shape (a : Analyser) (st : EngineState) (data : JSONData)
    (p : String) (n : Nat) :
    (processRow a st data p n).keysFoundPerFolder = bumpCount st.keysFoundPerFolder (dirOf p)
  ∨ (processRow a st data p n).keysFoundPerFolder = st.keysFoundPerFolder := by
  unfold processRow
  by_cases hk : a.checkKey
  · cases hg : getKey data a.uniqueKey with
    | none =>
        right
        by_cases hr : a.checkRow <;> by_cases hv : a.validateOnly <;> simp [hk, hg, hr, hv]
    | some v =>
        left
        by_cases hv : a.validateOnly
        · simp [hk, hg, hv]
        · by_cases hr : a.checkRow <;> simp [hk, hg, hv, hr]
  · right
    simp [hk]

theorem processLine_keysFound_shape (a : Analyser) (st : EngineState) (src : Source)
    (l : Line) (n : Nat) :
    (processLine a st src l n).keysFoundPerFolder = bumpCount st.keysFoundPerFolder src.dir
  ∨ (processLine a st src l n).keysFoundPerFolder = st.keysFoundPerFolder := by
  cases l with
  | blank => right; rfl
  | malformed => right; rfl
  | record fs =>
      rcases processRow_keysFound_shape a
          { st with
            totalRows := st.totalRows + 1
            rowsProcessedPerFolder := bumpCount st.rowsProcessedPerFolder src.dir }
          (unmarshalFields fs) src.path n with h | h
      · left; exact h
      · right; exact h

theorem keysInv_scanLinesAux (a : Analyser) (src : Source) (done : Nat → Bool)
    (ls : List Line) (st : EngineState) (n : Nat) (ds : List String)
    (h : KeysInv st.keysFoundPerFolder ds) (hd : src.dir ∈ ds) :
    KeysInv (scanLinesAux a src done st ls n).1.keysFoundPerFolder ds := by
  induction ls generalizing st n with
  | nil => exact h
  | cons l rest ih =>
      by_cases hdone : (n % 1000 == 0 && done n) = true
      · simpa [scanLinesAux, hdone] using h
      · simp only [scanLinesAux, hdone, Bool.false_eq_true, if_false]
        apply ih
        rcases processLine_keysFound_shape a st src l (n + 1) with hs | hs
        · rw [hs]; exact keysInv_bumpCount _ ds src.dir h hd
        · rw [hs]; exact h

theorem keysInv_processSource (a : Analyser) (st : EngineState) (src : Source)
    (done : Nat → Bool) (ds : List String) (h : KeysInv st.keysFoundPerFolder ds)
    (hd : src.dir ∈ ds) :
    KeysInv (processSource a st src done).keysFoundPerFolder ds := by
  cases hor : src.openResult with
  | none => simpa [processSource, hor] using h
  | some lv =>
      obtain ⟨ls, scanErr⟩ := lv
      simp only [processSource, hor]
      split
      · exact keysInv_scanLinesAux a src done ls _ 0 ds h hd
      · exact keysInv_scanLinesAux a src done ls _ 0 ds h hd

theorem keysInv_runSched (a : Analyser) (srcs : List Source) (st : EngineState)
    (sched : Nat → SourceFate) (ds : List String)
    (h : KeysInv st.keysFoundPerFolder ds) (hd : ∀ s ∈ srcs, Source.dir s ∈ ds) :
    KeysInv (runSched a st srcs sched).keysFoundPerFolder ds := by
  induction srcs generalizing st sched with
  | nil => exact h
  | cons s rest ih =>
      rw [runSched_cons]
      apply ih _ _ _ (fun s' hs' => hd s' (List.mem_cons_of_mem _ hs'))
      cases hf : sched 0 with
      | skip => exact h
      | scan done =>
          exact keysInv_processSource a st s done ds h (hd s (List.mem_cons_self _ _))

/-! ## The keys-found column of the folder breakdown -/

theorem setDetail_keys (m : List (String × FolderDetail)) (k : String) (d : FolderDetail) :
    (setDetail m k d).map Prod.fst
      = if k ∈ m.map Prod.fst then m.map Prod.fst else m.map Prod.fst ++ [k] := by
  induction m with
  | nil => simp [setDetail]
  | cons p rest ih =>
      by_cases hpk : p.1 = k
      · simp [setDetail, hpk]
      · have hne : ¬ k = p.1 := fun hc => hpk hc.symm
        by_cases hin : k ∈ rest.map Prod.fst <;>
          simp [setDetail, hpk, hin, hne, ih]

theorem buildFolderDetails_keysFound_value (st : EngineState) (srcs : List Source)
    (acc : List (String × FolderDetail))
    (hacc : ∀ q ∈ acc, q.2.keysFound = lookupD st.keysFoundPerFolder q.1 0) :
    ∀ q ∈ buildFolderDetails st srcs acc,
      q.2.keysFound = lookupD st.keysFoundPerFolder q.1 0 := by
  induction srcs generalizing acc with
  | nil => exact hacc
  | cons s rest ih =>
      simp only [buildFolderDetails]
      apply ih
      intro q hq
      rcases mem_setDetail _ _ _ q hq with h | rfl
      · exact hacc q h
      · split <;> rfl

theorem buildFolderDetails_keys_nodup (st : EngineState) (srcs : List Source)
    (acc : List (String × FolderDetail)) (hacc : (acc.map Prod.fst).Nodup) :
    ((buildFolderDetails st srcs acc).map Prod.fst).Nodup := by
  induction srcs generalizing acc with
  | nil => exact hacc
  | cons s rest ih =>
      simp only [buildFolderDetails]
      apply ih
      rw [setDetail_keys]
      by_cases hin : s.dir ∈ acc.map Prod.fst
      · simpa [hin] using hacc
      · simp only [hin, if_false]
        refine List.Nodup.append hacc (by simp) ?_
        intro x hx hy
        simp only [List.mem_singleton] at hy
        subst hy
        exact hin hx

theorem buildFolderDetails_keys_mem (st : EngineState) (srcs : List Source)
    (acc : List (String × FolderDetail)) (q : String) :
    q ∈ (buildFolderDetails st srcs acc).map Prod.fst
      ↔ q ∈ acc.map Prod.fst ∨ q ∈ srcs.map Source.dir := by
  induction srcs generalizing acc with
  | nil =>
      show q ∈ acc.map Prod.fst ↔ q ∈ acc.map Prod.fst ∨ q ∈ ([] : List String)
      simp
  | cons s rest ih =>
      simp only [buildFolderDetails]
      rw [ih, setDetail_keys]
      by_cases hin : s.dir ∈ acc.map Prod.fst
      · rw [if_pos hin]
        simp only [List.map_cons, List.mem_cons]
        constructor
        · rintro (h | h)
          · exact Or.inl h
          · exact Or.inr (Or.inr h)
        · rintro (h | rfl | h)
          · exact Or.inl h
          · exact Or.inl hin
          · exact Or.inr h
      · rw [if_neg hin]
        simp only [List.mem_append, List.mem_singleton, List.map_cons, List.mem_cons,
          List.not_mem_nil, or_false]
        constructor
        · rintro ((h | h) | h)
          · exact Or.inl h
          · exact Or.inr (Or.inl h)
          · exact Or.inr (Or.inr h)
        · rintro (h | rfl | h)
          · exact Or.inl (Or.inl h)
          · exact Or.inl (Or.inr rfl)
          · exact Or.inr h

theorem folderDetails_keysFound_sum (st : EngineState) (srcs : List Source)
    (hnd : (st.keysFoundPerFolder.map Prod.fst).Nodup)
    (hsub : ∀ k ∈ st.keysFoundPerFolder.map Prod.fst, k ∈ srcs.map Source.dir) :
    ((buildFolderDetails st srcs []).map (fun p => p.2.keysFound)).sum
      = countersTotal st.keysFoundPerFolder := by
  have hval : ∀ q ∈ buildFolderDetails st srcs [],
      q.2.keysFound = lookupD st.keysFoundPerFolder q.1 0 :=
    buildFolderDetails_keysFound_value st srcs [] (by simp)
  have h1 : (buildFolderDetails st srcs []).map (fun p => p.2.keysFound)
      = ((buildFolderDetails st srcs []).map Prod.fst).map
          (fun k => lookupD st.keysFoundPerFolder k 0) := by
    rw [List.map_map]
    exact List.map_congr_left (fun q hq => hval q hq)
  rw [h1]
  apply sum_lookupD_over_keys st.keysFoundPerFolder _
    (buildFolderDetails_keys_nodup st srcs [] (by simp)) hnd
  intro k hk
  exact (buildFolderDetails_keys_mem st srcs [] k).mpr (Or.inr (hsub k hk))

/-! ## C3: validation mode stores nothing but counts like a full analysis -/

theorem generateReport_totalKeyOccurrences_validation (a : Analyser) (st : EngineState)
    (srcs : List Source) (c : Bool) :
    (generateReport a st srcs c true).summary.totalKeyOccurrences
      = ((buildFolderDetails st srcs []).map (fun p => p.2.keysFound)).sum := by
  simp [generateReport]

theorem generateReport_totalKeyOccurrences_analysis (a : Analyser) (st : EngineState)
    (srcs : List Source) (c : Bool) :
    (generateReport a st srcs c false).summary.totalKeyOccurrences
      = if a.checkKey = true then (idLoop st.idLocations (0, 0, [], [])).1 else 0 := by
  by_cases hk : a.checkKey <;> simp [generateReport, hk]

/-- C3: a validation-mode run reports empty duplicate-ID and duplicate-row maps,
and its TotalKeyOccurrences equals what the full analysis run (same key, same
flags, validation off) over the same sources reports: both count exactly the
decoded rows in which the configured key is present. -/
theorem C3_validation_counts_match_analysis (key : String) (w : Nat) (ck cr : Bool)
    (srcs : List Source) :
    (Run ⟨key, w, ck, cr, true⟩ initState srcs fullSched false).2.duplicateIDs = []
  ∧ (Run ⟨key, w, ck, cr, true⟩ initState srcs fullSched false).2.duplicateRows = []
  ∧ (Run ⟨key, w, ck, cr, true⟩ initState srcs fullSched
        false).2.summary.totalKeyOccurrences
      = (Run ⟨key, w, ck, cr, false⟩ initState srcs fullSched
          false).2.summary.totalKeyOccurrences := by
  refine ⟨by simp [Run, generateReport], by simp [Run, generateReport], ?_⟩
  show (generateReport ⟨key, w, ck, cr, true⟩
        (runSched ⟨key, w, ck, cr, true⟩ initState srcs fullSched) srcs
        false true).summary.totalKeyOccurrences
      = (generateReport ⟨key, w, ck, cr, false⟩
        (runSched ⟨key, w, ck, cr, false⟩ initState srcs fullSched) srcs
        false false).summary.totalKeyOccurrences
  rw [generateReport_totalKeyOccurrences_validation,
    generateReport_totalKeyOccurrences_analysis]
  have hinv : KeysInv (runSched ⟨key, w, ck, cr, true⟩ initState srcs
      fullSched).keysFoundPerFolder (srcs.map Source.dir) :=
    keysInv_runSched ⟨key, w, ck, cr, true⟩ srcs initState fullSched _
      ⟨List.nodup_nil, by intro k hk; simp [initState] at hk⟩
      (fun s hs => List.mem_map_of_mem _ hs)
  rw [folderDetails_keysFound_sum _ srcs hinv.1 hinv.2]
  have hV : countersTotal (runSched ⟨key, w, ck, cr, true⟩ initState srcs
      fullSched).keysFoundPerFolder = srcsKeyHits key ck srcs := by
    simpa [runFull, countersTotal, initState] using
      runFull_keysFound_total ⟨key, w, ck, cr, true⟩ srcs initState
  have hA : groupsTotal (runSched ⟨key, w, ck, cr, false⟩ initState srcs
      fullSched).idLocations = srcsKeyHits key ck srcs := by
    simpa [runFull, groupsTotal, initState] using
      runFull_idLocations_total ⟨key, w, ck, cr, false⟩ srcs initState rfl
  rw [hV]
  cases ck with
  | true =>
      rw [if_pos rfl, idLoop_total]
      simpa using hA.symm
  | false =>
      rw [if_neg (by simp), srcsKeyHits_of_not_checkKey]

/-! ## C7: what feeds the two averages -/

/-- Rows contributed to the global row counter by one source under its fate. -/
def sourceRowCount (src : Source) : SourceFate → Nat
  | .skip => 0
  | .scan done =>
      match src.openResult with
      | none => 0
      | some (ls, _) => scanCount done ls 0

/-- Rows contributed by a scheduled run over a source list: every scanned source
counts, whether or not it ends up marked processed. -/
def schedRowCount : List Source → (Nat → SourceFate) → Nat
  | [], _ => 0
  | s :: rest, sched =>
      sourceRowCount s (sched 0) + schedRowCount rest (fun i => sched (i + 1))

theorem processSource_totalRows (a : Analyser) (st : EngineState) (src : Source)
    (done : Nat → Bool) :
    (processSource a st src done).totalRows
      = st.totalRows + sourceRowCount src (.scan done) := by
  cases hor : src.openResult with
  | none => simp [processSource, hor, sourceRowCount]
  | some lv =>
      obtain ⟨ls, scanErr⟩ := lv
      simp only [processSource, sourceRowCount, hor]
      split
      · exact scanLinesAux_totalRows a src done ls _ 0
      · exact scanLinesAux_totalRows a src done ls _ 0

theorem runSched_totalRows (a : Analyser) (srcs : List Source) (st : EngineState)
    (sched : Nat → SourceFate) :
    (runSched a st srcs sched).totalRows = st.totalRows + schedRowCount srcs sched := by
  induction srcs generalizing st sched with
  | nil => simp [runSched, schedRowCount]
  | cons s rest ih =>
      rw [runSched_cons, ih]
      cases hf : sched 0 with
      | skip => simp [schedRowCount, runFate, sourceRowCount, hf]
      | scan done =>
          simp only [schedRowCount, runFate, hf]
          rw [processSource_totalRows]
          omega

/-- C7 (amended): `TotalRowsProcessed` — and hence the numerator of
`AverageRowsPerFile` — counts the rows scanned from all sources, including rows of
partially scanned or scanner-error sources that are never marked processed; the
denominator is the processed-file count (the average is zero when it is zero).
The `AverageFilesPerFolder` half of the original claim holds as stated: the full
source-list length over the number of distinct folder identifiers of the full
list, unprocessed sources included. -/
theorem C7_average_inputs (a : Analyser) (srcs : List Source) (sched : Nat → SourceFate)
    (c : Bool) :
    ((Run a initState srcs sched c).2.summary.totalRowsProcessed
        = schedRowCount srcs sched)
  ∧ ((Run a initState srcs sched c).2.summary.averageRowsPerFile
      = if 0 < (runSched a initState srcs sched).processedFiles
        then (schedRowCount srcs sched : Rat)
          / ((runSched a initState srcs sched).processedFiles : Rat)
        else 0)
  ∧ ((Run a initState srcs sched c).2.summary.averageFilesPerFolder
      = if 0 < ((srcs.map Source.dir).dedup).length
        then (srcs.length : Rat) / (((srcs.map Source.dir).dedup).length : Rat)
        else 0) := by
  have hrows : (runSched a initState srcs sched).totalRows = schedRowCount srcs sched := by
    simpa [initState] using runSched_totalRows a srcs initState sched
  refine ⟨hrows, ?_, rfl⟩
  show (if 0 < (runSched a initState srcs sched).processedFiles
      then ((runSched a initState srcs sched).totalRows : Rat)
        / ((runSched a initState srcs sched).processedFiles : Rat)
      else 0)
    = if 0 < (runSched a initState srcs sched).processedFiles
      then (schedRowCount srcs sched : Rat)
        / ((runSched a initState srcs sched).processedFiles : Rat)
      else 0
  rw [hrows]

/-- A source whose scanner fails after yielding five rows: never marked processed,
but its five rows still enter the global row counter. -/
def srcErr : Source :=
  ⟨"/d/b.json", 20,
    some ([.record [("id", JsonVal.str "b")], .record [("id", JsonVal.str "b")],
      .record [("id", JsonVal.str "b")], .record [("id", JsonVal.str "b")],
      .record [("id", JsonVal.str "b")]], true)⟩

/-- C7 counterexample: one cleanly processed one-row file plus one source whose
scanner fails after five rows. The report's AverageRowsPerFile is 6 — six scanned
rows over one processed file — while the claim's "rows counted from processed
sources divided by the number of processed files" is 1: the five rows of the
never-processed source are in the numerator. -/
theorem C7_counterexample_includes_unprocessed_rows :
    ((Run cfgW initState [srcClean, srcErr] fullSched
        false).2.summary.averageRowsPerFile = (6 : Rat))
  ∧ ((Run cfgW initState [srcClean, srcErr] fullSched
        false).2.summary.filesProcessed = 1)
  ∧ ((runFull cfgW initState [srcClean, srcErr]).processedPaths = ["/d/a.json"])
  ∧ (nonblankCount [Line.record [("id", JsonVal.str "a")]] = 1)
  ∧ ((6 : Rat) ≠ 1) := by
  have hpf : (runSched cfgW initState [srcClean, srcErr] fullSched).processedFiles = 1 := by
    decide
  have htr : (runSched cfgW initState [srcClean, srcErr] fullSched).totalRows = 6 := by
    decide
  refine ⟨?_, hpf, rfl, rfl, by norm_num⟩
  show (if 0 < (runSched cfgW initState [srcClean, srcErr] fullSched).processedFiles
      then ((runSched cfgW initState [srcClean, srcErr] fullSched).totalRows : Rat)
        / ((runSched cfgW initState [srcClean, srcErr] fullSched).processedFiles : Rat)
      else 0) = 6
  rw [hpf, htr]
  norm_num

end DupeAnalyser
